import Mathlib

/-!
# Shadowdog: a verification development

A shallow embedding, in Lean 4, of the core algorithms of the `shadowdog`
incremental artifact build daemon, together with theorems checking the
natural-language specification of the tool against the embedded code.

The embedding follows the TypeScript sources:

* `src/utils.ts` — `computeCache`, `computeFileCacheName` (cache keys,
  HMAC-SHA1 based, implemented here bit-for-bit over UTF-8 byte lists);
* `src/tasks.ts` — `runTask` command-string handling (`$FILE` substitution);
* `src/task-runner.ts` — the middleware chain with `next` / `abort`;
* `src/plugins/shadowdog-local-cache.ts` — the local cache middleware with
  SHA verification of restores;
* `src/dependencyGraph.ts` and the dependency-layering plugin —
  `DependencyGraph`, `topologicalSort`, `organizeTasksInLayers`;
* the daemon / MCP pause-resume machinery — pending-change tracking and
  replay;
* the generator's post-command artifact readiness check (modelled from the
  spec, see `waitLoop` below).

Machine integers do not occur; the hash cores use `Nat` with explicit
`% 2 ^ 32` reductions exactly where JavaScript's 32-bit hash arithmetic
overflows.
-/

set_option autoImplicit false

namespace Shadowdog

/-! ## Bytes and UTF-8

Node's `hash.update(string)` consumes the UTF-8 encoding of the string.
Bytes are modelled as `Nat` values below 256. -/

/-- UTF-8 encoding of a single character (code point to 1–4 bytes). -/
def charUtf8 (c : Char) : List Nat :=
  let n := c.toNat
  if n < 128 then [n]
  else if n < 2048 then [192 + n / 64, 128 + n % 64]
  else if n < 65536 then [224 + n / 4096, 128 + (n / 64) % 64, 128 + n % 64]
  else [240 + n / 262144, 128 + (n / 4096) % 64, 128 + (n / 64) % 64, 128 + n % 64]

/-- UTF-8 encoding of a string as a byte list. -/
def utf8Bytes (s : String) : List Nat :=
  (s.toList.map charUtf8).flatten

/-! ## SHA-1 and SHA-256 cores

`computeCache` and `computeFileCacheName` call `crypto.createHmac('sha1', '')`;
the content digests use SHA-256.  Both are implemented here over byte lists;
words are `Nat` reduced modulo `2 ^ 32`. -/

/-- 32-bit word modulus. -/
def w32 : Nat := 4294967296

/-- Rotate a 32-bit word left by `n` bits. -/
def rotl32 (n x : Nat) : Nat :=
  ((x * 2 ^ n) + x / 2 ^ (32 - n)) % w32

/-- Merkle–Damgård padding shared by SHA-1 and SHA-256: append `0x80`, zero
pad to 56 mod 64, then the message length in bits as 8 big-endian bytes. -/
def shaPad (msg : List Nat) : List Nat :=
  let total := msg.length + 9
  let zeros := (64 - total % 64) % 64
  let bitLen := msg.length * 8
  msg ++ [128] ++ List.replicate zeros 0 ++
    [bitLen / 2 ^ 56 % 256, bitLen / 2 ^ 48 % 256, bitLen / 2 ^ 40 % 256,
     bitLen / 2 ^ 32 % 256, bitLen / 2 ^ 24 % 256, bitLen / 2 ^ 16 % 256,
     bitLen / 2 ^ 8 % 256, bitLen % 256]

/-- Big-endian assembly of four bytes into one 32-bit word. -/
def word4 (a b c d : Nat) : Nat := ((a * 256 + b) * 256 + c) * 256 + d

/-- Split a byte list into big-endian 32-bit words (length a multiple of 4). -/
def bytesToWords : List Nat → List Nat
  | a :: b :: c :: d :: rest => word4 a b c d :: bytesToWords rest
  | _ => []

/-- Split a list into chunks of at most 16 words, fuelled by the list length
(one fuel unit per emitted chunk is ample). -/
def chunksAux : Nat → List Nat → List (List Nat)
  | _, [] => []
  | 0, l => [l]
  | fuel + 1, l => if l.length ≤ 16 then [l] else l.take 16 :: chunksAux fuel (l.drop 16)

/-- Split a byte-word list into the 16-word blocks the compressions consume. -/
def chunks16 (l : List Nat) : List (List Nat) :=
  chunksAux l.length l

/-- Big-endian bytes of one 32-bit word. -/
def wordBytes (x : Nat) : List Nat :=
  [x / 2 ^ 24 % 256, x / 2 ^ 16 % 256, x / 2 ^ 8 % 256, x % 256]

/-- SHA-1 message-schedule extension: grow the 16 block words to 80. -/
def sha1Extend (w : List Nat) (fuel : Nat) : List Nat :=
  match fuel with
  | 0 => w
  | fuel + 1 =>
      let i := w.length
      let x := (w.getD (i - 3) 0) ^^^ (w.getD (i - 8) 0) ^^^
               (w.getD (i - 14) 0) ^^^ (w.getD (i - 16) 0)
      sha1Extend (w ++ [rotl32 1 x]) fuel

/-- One SHA-1 round. -/
def sha1Round (wi : Nat) (i : Nat) (st : Nat × Nat × Nat × Nat × Nat) :
    Nat × Nat × Nat × Nat × Nat :=
  let (a, b, c, d, e) := st
  let fk :=
    if i < 20 then ((b &&& c) ||| ((b ^^^ (w32 - 1)) &&& d), 1518500249)
    else if i < 40 then (b ^^^ c ^^^ d, 1859775393)
    else if i < 60 then ((b &&& c) ||| (b &&& d) ||| (c &&& d), 2400959708)
    else (b ^^^ c ^^^ d, 3395469782)
  let t := (rotl32 5 a + fk.1 + e + fk.2 + wi) % w32
  (t, a, rotl32 30 b, c, d)

/-- SHA-1 compression of one 16-word block into the running state. -/
def sha1Block (h : Nat × Nat × Nat × Nat × Nat) (block : List Nat) :
    Nat × Nat × Nat × Nat × Nat :=
  let w := sha1Extend (block ++ List.replicate (16 - block.length) 0) 64
  let (a, b, c, d, e) :=
    (List.range 80).foldl (fun st i => sha1Round (w.getD i 0) i st) h
  ((h.1 + a) % w32, (h.2.1 + b) % w32, (h.2.2.1 + c) % w32,
   (h.2.2.2.1 + d) % w32, (h.2.2.2.2 + e) % w32)

/-- SHA-1 of a byte list, as 20 bytes. -/
def sha1 (msg : List Nat) : List Nat :=
  let blocks := chunks16 (bytesToWords (shaPad msg))
  let (h0, h1, h2, h3, h4) :=
    blocks.foldl sha1Block
      (1732584193, 4023233417, 2562383102, 271733878, 3285377520)
  wordBytes h0 ++ wordBytes h1 ++ wordBytes h2 ++ wordBytes h3 ++ wordBytes h4

/-- The 64 SHA-256 round constants. -/
def sha256K : List Nat :=
  [1116352408, 1899447441, 3049323471, 3921009573, 961987163, 1508970993,
   2453635748, 2870763221, 3624381080, 310598401, 607225278, 1426881987,
   1925078388, 2162078206, 2614888103, 3248222580, 3835390401, 4022224774,
   264347078, 604807628, 770255983, 1249150122, 1555081692, 1996064986,
   2554220882, 2821834349, 2952996808, 3210313671, 3336571891, 3584528711,
   113926993, 338241895, 666307205, 773529912, 1294757372, 1396182291,
   1695183700, 1986661051, 2177026350, 2456956037, 2730485921, 2820302411,
   3259730800, 3345764771, 3516065817, 3600352804, 4094571909, 275423344,
   430227734, 506948616, 659060556, 883997877, 958139571, 1322822218,
   1537002063, 1747873779, 1955562222, 2024104815, 2227730452, 2361852424,
   2428436474, 2756734187, 3204031479, 3329325298]

/-- Rotate a 32-bit word right by `n` bits. -/
def rotr32 (n x : Nat) : Nat := rotl32 (32 - n) x

/-- SHA-256 message-schedule extension: grow the 16 block words to 64. -/
def sha256Extend (w : List Nat) (fuel : Nat) : List Nat :=
  match fuel with
  | 0 => w
  | fuel + 1 =>
      let i := w.length
      let x15 := w.getD (i - 15) 0
      let x2 := w.getD (i - 2) 0
      let s0 := (rotr32 7 x15) ^^^ (rotr32 18 x15) ^^^ (x15 / 2 ^ 3)
      let s1 := (rotr32 17 x2) ^^^ (rotr32 19 x2) ^^^ (x2 / 2 ^ 10)
      sha256Extend (w ++ [(w.getD (i - 16) 0 + s0 + w.getD (i - 7) 0 + s1) % w32]) fuel

/-- One SHA-256 round. -/
def sha256Round (wi ki : Nat)
    (st : Nat × Nat × Nat × Nat × Nat × Nat × Nat × Nat) :
    Nat × Nat × Nat × Nat × Nat × Nat × Nat × Nat :=
  let (a, b, c, d, e, f, g, h) := st
  let s1 := (rotr32 6 e) ^^^ (rotr32 11 e) ^^^ (rotr32 25 e)
  let ch := (e &&& f) ^^^ ((e ^^^ (w32 - 1)) &&& g)
  let t1 := (h + s1 + ch + ki + wi) % w32
  let s0 := (rotr32 2 a) ^^^ (rotr32 13 a) ^^^ (rotr32 22 a)
  let maj := (a &&& b) ^^^ (a &&& c) ^^^ (b &&& c)
  let t2 := (s0 + maj) % w32
  ((t1 + t2) % w32, a, b, c, (d + t1) % w32, e, f, g)

/-- SHA-256 compression of one 16-word block into the running state. -/
def sha256Block (h : Nat × Nat × Nat × Nat × Nat × Nat × Nat × Nat)
    (block : List Nat) : Nat × Nat × Nat × Nat × Nat × Nat × Nat × Nat :=
  let w := sha256Extend (block ++ List.replicate (16 - block.length) 0) 48
  let (a, b, c, d, e, f, g, hh) :=
    (List.range 64).foldl
      (fun st i => sha256Round (w.getD i 0) (sha256K.getD i 0) st) h
  ((h.1 + a) % w32, (h.2.1 + b) % w32, (h.2.2.1 + c) % w32,
   (h.2.2.2.1 + d) % w32, (h.2.2.2.2.1 + e) % w32, (h.2.2.2.2.2.1 + f) % w32,
   (h.2.2.2.2.2.2.1 + g) % w32, (h.2.2.2.2.2.2.2 + hh) % w32)

/-- SHA-256 of a byte list, as 32 bytes. -/
def sha256 (msg : List Nat) : List Nat :=
  let blocks := chunks16 (bytesToWords (shaPad msg))
  let (h0, h1, h2, h3, h4, h5, h6, h7) :=
    blocks.foldl sha256Block
      (1779033703, 3144134277, 1013904242, 2773480762,
       1359893119, 2600822924, 528734635, 1541459225)
  wordBytes h0 ++ wordBytes h1 ++ wordBytes h2 ++ wordBytes h3 ++
    wordBytes h4 ++ wordBytes h5 ++ wordBytes h6 ++ wordBytes h7

/-- HMAC over a 64-byte-block hash function (RFC 2104). -/
def hmac (hashFn : List Nat → List Nat) (key msg : List Nat) : List Nat :=
  let k0 := if key.length > 64 then hashFn key else key
  let k := k0 ++ List.replicate (64 - k0.length) 0
  hashFn ((k.map (· ^^^ 92)) ++ hashFn ((k.map (· ^^^ 54)) ++ msg))

/-- HMAC-SHA1, the digest behind `crypto.createHmac('sha1', key)`. -/
def hmacSha1 (key msg : List Nat) : List Nat := hmac sha1 key msg

/-- One lowercase hexadecimal digit. -/
def hexDigit (n : Nat) : Char :=
  if n < 10 then Char.ofNat (48 + n) else Char.ofNat (87 + n)

/-- Lowercase hexadecimal rendering of a byte list (`digest('hex')`). -/
def bytesToHex (bytes : List Nat) : String :=
  String.mk (bytes.map (fun b => [hexDigit (b / 16), hexDigit (b % 16)])).flatten

/-- `.slice(0, n)` on a digest string: the first `n` characters (digest
strings are ASCII, so characters and bytes coincide). -/
def sliceFirst (s : String) (n : Nat) : String :=
  ⟨s.data.take n⟩

/-! ## Cache keys (`src/utils.ts`)

`computeCache(files, environment, command)` reads each file's contents with
`fs.readFileSync`; the embedding carries the contents alongside the path.  The
process environment is an association list; `process.env[name]` is `envValue`.
The tool version (`readShadowdogVersion()`, from `package.json`) and the Node
runtime version (`process.version`) are host inputs and appear as explicit
parameters bundled in `HostInfo`. -/

/-- A watched input file as `computeCache` consumes it: its path (relative to
the project root) and the contents `fs.readFileSync(path, 'utf-8')` yields. -/
structure FileInput where
  path : String
  contents : String
deriving DecidableEq

/-- The process environment: variable name to value. -/
abbrev Env := List (String × String)

/-- `process.env[name]`: `some` value when set, `none` when unset. -/
def envValue (env : Env) (name : String) : Option String :=
  (env.find? (fun p => p.1 == name)).map (·.2)

/-- Host inputs of the cache key: the tool version read from `package.json`
and `process.version` of the Node runtime. -/
structure HostInfo where
  toolVersion : String
  nodeVersion : String
deriving DecidableEq

/-- The streaming `hash.update(s)` of Node: append the UTF-8 bytes of `s` to
the byte stream the digest will consume. -/
def hashUpdate (buf : List Nat) (s : String) : List Nat := buf ++ utf8Bytes s

/-- `computeCache` from `src/utils.ts`:

```ts
const hash = crypto.createHmac('sha1', '')
files.forEach((filePath) => {
  hash.update(filePath)
  hash.update(fs.readFileSync(path.join(process.cwd(), filePath), 'utf-8'))
})
environment.forEach((env) => hash.update(process.env[env] ?? ''))
hash.update(command)
hash.update(readShadowdogVersion())
hash.update(process.version)
return hash.digest('hex').slice(0, 10)
```
-/
def computeCache (files : List FileInput) (environment : List String)
    (command : String) (env : Env) (host : HostInfo) : String :=
  let buf : List Nat := []
  let buf := files.foldl (fun b f => hashUpdate (hashUpdate b f.path) f.contents) buf
  let buf := environment.foldl (fun b name => hashUpdate b ((envValue env name).getD "")) buf
  let buf := hashUpdate buf command
  let buf := hashUpdate buf host.toolVersion
  let buf := hashUpdate buf host.nodeVersion
  sliceFirst (bytesToHex (hmacSha1 [] buf)) 10

/-- `computeFileCacheName` from `src/utils.ts`: the per-artifact object name,
a second keyed digest over the cache key and the artifact's output path. -/
def computeFileCacheName (currentCache : String) (fileName : String) : String :=
  sliceFirst (bytesToHex (hmacSha1 [] (hashUpdate (hashUpdate [] currentCache) fileName))) 10

/-- The ordered byte transcript the cache key digests, written as one string:
each file's path followed by its contents, then each invalidator environment
variable's current value (the empty string when unset), then the command, the
tool version and the Node runtime version. -/
def cacheTranscript (files : List FileInput) (environment : List String)
    (command : String) (env : Env) (host : HostInfo) : String :=
  String.join (files.map (fun f => f.path ++ f.contents)) ++
    String.join (environment.map (fun name => (envValue env name).getD "")) ++
    command ++ host.toolVersion ++ host.nodeVersion

/-! ## Command-string handling (`src/tasks.ts`)

`runTask` builds the command it spawns with

```ts
const fullCommand = changedFilePath ? command.replace('$FILE', changedFilePath) : command
```

JavaScript's `String.prototype.replace` with a *string* pattern replaces only
the first occurrence of the pattern; later occurrences stay untouched.  The
replacement string is not spliced verbatim: `replace` runs the
`GetSubstitution` abstract operation on it, expanding `$$` to `$`, `$&` to
the matched pattern, a dollar followed by a backquote (U+0060) to the part of
the string before the match, and a dollar followed by a single quote (U+0027)
to the part after the match; with a string pattern there are no capture
groups, so every other `$` sequence (`$1`, `$<`, a lone `$`) stays literal. -/

/-- Does `pat` occur at the head of `l`? (Character-by-character test.) -/
def leadMatch : List Char → List Char → Bool
  | [], _ => true
  | _ :: _, [] => false
  | p :: ps, c :: cs => p == c && leadMatch ps cs

/-- ECMAScript `GetSubstitution` for a string-pattern `replace` (no capture
groups): scan the replacement template; `$$` yields `$`, `$&` the matched
pattern, dollar-backquote the part of the subject before the match,
dollar-quote the part after it; any other `$` is literal (zero captures, so
`$1`, `$<` and a trailing `$` pass through). -/
def getSubstitution (matched before after : List Char) : List Char → List Char
  | [] => []
  | [c] => [c]
  | c :: d :: rest =>
    if c = '$' then
      if d = '$' then '$' :: getSubstitution matched before after rest
      else if d = '&' then matched ++ getSubstitution matched before after rest
      else if d = Char.ofNat 96 then before ++ getSubstitution matched before after rest
      else if d = Char.ofNat 39 then after ++ getSubstitution matched before after rest
      else c :: getSubstitution matched before after (d :: rest)
    else c :: getSubstitution matched before after (d :: rest)

/-- Split a character list around the first occurrence of `pat`: the part
before the match and the part after it, or `none` when `pat` does not occur
(an empty pattern matches at the start, as in JavaScript). -/
def splitFirst (pat : List Char) : List Char → Option (List Char × List Char)
  | [] => if leadMatch pat [] then some ([], []) else none
  | c :: rest =>
    if leadMatch pat (c :: rest) then some ([], (c :: rest).drop pat.length)
    else
      match splitFirst pat rest with
      | some (a, b) => some (c :: a, b)
      | none => none

/-- Replace the first occurrence of `pat` (and only the first one) with the
`GetSubstitution` expansion of `repl`, as JavaScript's string `replace`
does. -/
def replaceFirstChars (pat repl : List Char) (s : List Char) : List Char :=
  match splitFirst pat s with
  | some (a, b) => a ++ getSubstitution pat a b repl ++ b
  | none => s

/-- JavaScript `s.replace(pat, repl)` for a string pattern. -/
def jsReplaceFirst (s pat repl : String) : String :=
  String.mk (replaceFirstChars pat.toList repl.toList s.toList)

/-- Does `pat` occur anywhere in `s`? -/
def hasOccurrence (pat : List Char) : List Char → Bool
  | [] => leadMatch pat []
  | c :: rest => leadMatch pat (c :: rest) || hasOccurrence pat rest

/-- The command string `runTask` hands to the shell: `$FILE` substituted with
the changed file's path when one is provided, the command untouched otherwise. -/
def fullCommand (command : String) (changedFilePath : Option String) : String :=
  match changedFilePath with
  | some p => jsReplaceFirst command "$FILE" p
  | none => command

/-! ## Artifact readiness after a command (Generator)

Modelled from the spec: the artifact-readiness wait the Generator performs
after the terminal executor returns is not among the sources available here —
only its test suite (`src/generate.test.ts`) is.  Spec §4.9: after the
terminal returns successfully, the Generator waits "up to a bounded retry
count (configurable via env; default ≈ 5 s at 100 ms intervals) for every
declared artifact to exist, be readable, and be non-empty if it is a file",
and "missing artifacts after the timeout produce a structured error"; §8: "a
0-byte file counts as not readable".  The retry-count override variable is
`SHADOWDOG_ARTIFACT_WAIT_MAX_RETRIES` (spec §6 and the test suite).  The
filesystem is a time-indexed map so the polling loop can observe an artifact
appearing between retries. -/

/-- What a poll of an artifact path can observe: nothing, a file of a given
size with a readability flag, or a directory with a readability flag. -/
inductive FsEntry where
  | file (readable : Bool) (size : Nat)
  | dir (readable : Bool)
deriving DecidableEq

/-- Modelled from the spec: one readiness poll — the artifact must exist, be
readable, and be non-empty if it is a file (a 0-byte file is not ready). -/
def artifactReadyAt (entry : Option FsEntry) : Bool :=
  match entry with
  | none => false
  | some (.file readable size) => readable && decide (0 < size)
  | some (.dir readable) => readable

/-- Modelled from the spec: poll the artifact once per 100 ms tick, up to the
retry budget; returns the first tick at which it was ready, if any. -/
def waitLoop (fsAt : Nat → Option FsEntry) : Nat → Nat → Option Nat
  | 0, _ => none
  | fuel + 1, t => if artifactReadyAt (fsAt t) then some t else waitLoop fsAt fuel (t + 1)

/-- Decimal parse of an override value: `some n` for a non-empty digit
string, `none` otherwise. -/
def parseNat? (s : String) : Option Nat :=
  if s.data ≠ [] ∧ s.data.all (fun c => c.isDigit) then
    some (s.data.foldl (fun n c => n * 10 + (c.toNat - 48)) 0)
  else none

/-- Modelled from the spec: the retry budget — the
`SHADOWDOG_ARTIFACT_WAIT_MAX_RETRIES` override when set to a number, else 50
retries (≈ 5 s at 100 ms intervals). -/
def artifactWaitMaxRetries (env : Env) : Nat :=
  match envValue env "SHADOWDOG_ARTIFACT_WAIT_MAX_RETRIES" with
  | some s => (parseNat? s).getD 50
  | none => 50

/-- Milliseconds between readiness polls. -/
def pollIntervalMs : Nat := 100

/-- The structured error the readiness check produces: the artifact it names
and the human-readable message (the message text follows the test suite). -/
structure ArtifactError where
  output : String
  message : String
deriving DecidableEq

/-- Modelled from the spec: verify one declared artifact after the terminal
executor returned, failing with a structured error if it never became ready
within the retry budget. -/
def verifyArtifact (env : Env) (fsAt : Nat → Option FsEntry) (output : String) :
    Except ArtifactError Unit :=
  match waitLoop fsAt (artifactWaitMaxRetries env) 0 with
  | some _ => .ok ()
  | none => .error ⟨output,
      "Artifact " ++ output ++
        " was not created or is not readable after task completion"⟩

/-- Modelled from the spec: verify every declared artifact, surfacing the
first structured error. -/
def verifyArtifacts (env : Env) (fs : String → Nat → Option FsEntry) :
    List String → Except ArtifactError Unit
  | [] => .ok ()
  | output :: rest =>
    match verifyArtifact env (fs output) output with
    | .ok _ => verifyArtifacts env fs rest
    | .error e => .error e

/-! ## Configuration records (`src/config.ts`)

Only the fields the embedded algorithms consume are carried. -/

/-- An artifact a command produces: its output path (relative to the project
root) and the optional list of subpaths excluded when packing. -/
structure Artifact where
  output : String
  ignore : Option (List String) := none
deriving DecidableEq

/-- A configured command: the opaque shell string, working directory, tags and
the ordered artifact list. -/
structure CommandConfig where
  command : String
  workingDirectory : String := ""
  tags : List String := []
  artifacts : List Artifact := []
deriving DecidableEq

/-! ## Relative-path helpers

The middleware manipulates paths with `path.join(p, '..')`, `path.basename`
and simple concatenations; all paths here are relative to the project root. -/

/-- Split a character list at `/` separators. -/
def splitSegsAux (acc : List Char) : List Char → List (List Char)
  | [] => [acc.reverse]
  | c :: rest => if c = '/' then acc.reverse :: splitSegsAux [] rest
                 else splitSegsAux (c :: acc) rest

/-- The `/`-separated segments of a relative path. -/
def pathSegments (p : String) : List String :=
  (splitSegsAux [] p.data).map (fun l => ⟨l⟩)

/-- Join path segments with `/`. -/
def joinSegments : List String → String
  | [] => ""
  | [s] => s
  | s :: rest => s ++ "/" ++ joinSegments rest

/-- The final segment of a relative path (`path.basename`). -/
def basename (p : String) : String :=
  (pathSegments p).getLastD p

/-- The parent of a relative path (`path.join(p, '..')` for relative `p`). -/
def parentDir (p : String) : String :=
  joinSegments (pathSegments p).dropLast

/-- Join a parent directory and an entry name. -/
def joinRel (dir name : String) : String :=
  if dir == "" then name else dir ++ "/" ++ name

/-! ## The local cache middleware (`src/plugins/shadowdog-local-cache.ts`)

The filesystem state visible to the middleware: the artifacts on disk (path to
contents), the cache directory (cache file path to archive), and a trace of
the observable effects (temp extraction and removal, in-place unpacking, cache
stores, and terminal-executor spawns).  An archive is the entry list of the
`.tar.gz` (entry name to contents); the single-artifact archives the plugin
writes hold the artifact's base name.  Stream errors of `decompressArtifact`
are beyond a pure model, so the two spots that `catch` them take the outcome
from a `LocalCacheOracle` of the run. -/

/-- The entries of a cached `.tar.gz`: entry name to contents. -/
abbrev Archive := List (String × String)

/-- Insertion-ordered association-list lookup (`Map.prototype.get`). -/
def mapGet {κ α : Type} [BEq κ] (m : List (κ × α)) (k : κ) : Option α :=
  (m.find? (fun p => p.1 == k)).map (·.2)

/-- Insertion-ordered association-list update (`Map.prototype.set`): overwrite
the key in place if present, append otherwise. -/
def mapSet {κ α : Type} [BEq κ] (m : List (κ × α)) (k : κ) (v : α) :
    List (κ × α) :=
  if (m.find? (fun p => p.1 == k)).isSome then
    m.map (fun p => if p.1 == k then (k, v) else p)
  else m ++ [(k, v)]

/-- Observable effects of a middleware-chain run. -/
inductive CacheEffect where
  | tempExtract (tempPath : String)
  | tempRemove (tempPath : String)
  | unpackInPlace (output : String)
  | spawn (command : String)
  | store (output : String)
deriving DecidableEq

/-- The filesystem and effect-trace state threaded through a chain run. -/
structure CacheSt where
  disk : List (String × String)
  cache : List (String × Archive)
  trace : List CacheEffect
deriving DecidableEq

/-- Failure oracle for the two stream operations the plugin `catch`es. -/
structure LocalCacheOracle where
  tempExtractOk : Bool := true
  inPlaceExtractOk : Bool := true
deriving DecidableEq

/-- `filterFn` of the plugin: keep an entry unless the artifact's ignore list
contains `path.join(outputPath, '..', filePath)`. -/
def filterKeep (ignore : Option (List String)) (outputPath filePath : String) : Bool :=
  match ignore with
  | none => true
  | some ig => !(ig.contains (joinRel (parentDir outputPath) filePath))

/-- Modelled from the spec: `computeArtifactContentSha` is imported from
`../utils` by the shipped plugin, but the `utils.ts` available here predates
it — §4.11 describes it as the short (10 hex characters) SHA-256 of the
produced bytes, `null` when the path cannot be read. -/
def shortSha256 (content : String) : String :=
  sliceFirst (bytesToHex (sha256 (utf8Bytes content))) 10

/-- Modelled from the spec: the content digest of a path on disk, `none` when
nothing readable is there (see `shortSha256`). -/
def computeArtifactContentSha (disk : List (String × String)) (p : String) :
    Option String :=
  (mapGet disk p).map shortSha256

/-- The `cachedSha !== null && existingSha !== null && cachedSha === existingSha`
test guarding the skipped restore. -/
def shaMatch : Option String → Option String → Bool
  | some x, some y => x == y
  | _, _ => false

/-- The cache file path of an artifact:
`path.join(cachePath, computeFileCacheName(currentCache, output) + '.tar.gz')`. -/
def cacheFilePathOf (cachePath currentCache output : String) : String :=
  cachePath ++ "/" ++ computeFileCacheName currentCache output ++ ".tar.gz"

/-- The temporary extraction location:
`path.join(cachePath, '.temp-' + cacheFileName + '-' + Date.now())`. -/
def tempOutputPathOf (cachePath currentCache output : String) (now : Nat) : String :=
  cachePath ++ "/.temp-" ++ computeFileCacheName currentCache output ++ "-" ++ toString now

/-- The in-place `decompressArtifact(cacheFilePath, path.join(cwd, output, '..'), filter)`
call: on success the filtered archive entry lands at the artifact path and the
artifact counts as restored (`null`); the `catch` arm returns the artifact so
it is generated. -/
def inPlaceRestore (oracle : LocalCacheOracle) (a : Artifact) (archive : Archive)
    (st : CacheSt) : CacheSt × Option Artifact :=
  let st := { st with trace := st.trace ++ [.unpackInPlace a.output] }
  if oracle.inPlaceExtractOk then
    let entry :=
      if filterKeep a.ignore a.output (basename a.output) then
        mapGet archive (basename a.output)
      else none
    ({ st with disk := match entry with
        | some c => mapSet st.disk a.output c
        | none => st.disk }, none)
  else (st, some a)

/-- One artifact of `restoreCache`: cache miss returns the artifact (it must
be generated); on a hit with an existing on-disk artifact the plugin extracts
the archive to a temporary location, digests the extracted copy and the
existing artifact, skips the restore when the digests match, and unpacks into
place otherwise; the temporary location is removed before every exit. -/
def restoreArtifact (cachePath currentCache : String) (now : Nat)
    (oracle : LocalCacheOracle) (st : CacheSt) (a : Artifact) :
    CacheSt × Option Artifact :=
  match mapGet st.cache (cacheFilePathOf cachePath currentCache a.output) with
  | none => (st, some a)
  | some archive =>
    match mapGet st.disk a.output with
    | some _ =>
      let tempOutputPath := tempOutputPathOf cachePath currentCache a.output now
      let st := { st with trace := st.trace ++ [CacheEffect.tempExtract tempOutputPath] }
      if oracle.tempExtractOk then
        let extracted :=
          if filterKeep a.ignore a.output (basename a.output) then
            mapGet archive (basename a.output)
          else none
        match extracted with
        | some extractedContent =>
          let cachedSha := some (shortSha256 extractedContent)
          let existingSha := computeArtifactContentSha st.disk a.output
          let st := { st with trace := st.trace ++ [CacheEffect.tempRemove tempOutputPath] }
          if shaMatch cachedSha existingSha then (st, none)
          else inPlaceRestore oracle a archive st
        | none =>
          let st := { st with trace := st.trace ++ [CacheEffect.tempRemove tempOutputPath] }
          inPlaceRestore oracle a archive st
      else
        let st := { st with trace := st.trace ++ [CacheEffect.tempRemove tempOutputPath] }
        inPlaceRestore oracle a archive st
    | none => inPlaceRestore oracle a archive st

/-- Restore every artifact of the command in order, collecting the artifacts
still to generate (the non-`null` results). -/
def restoreCacheFold (cachePath currentCache : String) (now : Nat)
    (oracle : LocalCacheOracle) (artifacts : List Artifact) (st : CacheSt) :
    CacheSt × List Artifact :=
  artifacts.foldl
    (fun acc a =>
      let (st', r) := restoreArtifact cachePath currentCache now oracle acc.1 a
      (st', acc.2 ++ r.toList))
    (st, [])

/-- `restoreCache`: `true` (all artifacts reused, skip the command) exactly
when the artifact list is non-empty and no artifact remains to generate. -/
def restoreCache (cachePath currentCache : String) (now : Nat)
    (oracle : LocalCacheOracle) (artifacts : List Artifact) (st : CacheSt) :
    CacheSt × Bool :=
  let (st', missed) := restoreCacheFold cachePath currentCache now oracle artifacts st
  (st', !artifacts.isEmpty && missed.isEmpty)

/-- JavaScript truthiness of `process.env[name]` (a set, non-empty string). -/
def envTruthy (env : Env) (name : String) : Bool :=
  match envValue env name with
  | some s => !(s == "")
  | none => false

/-- `process.env[name] ? process.env[name] === 'true' : dflt` — the read/write
kill-switch pattern of the plugin. -/
def envBoolFlag (env : Env) (name : String) (dflt : Bool) : Bool :=
  match envValue env name with
  | some s => if s == "" then dflt else s == "true"
  | none => dflt

/-- Options of the local cache plugin (`pluginTypes.ts` defaults). -/
structure LocalCacheOptions where
  path : String := "/tmp/shadowdog/cache"
  read : Bool := true
  write : Bool := true
deriving DecidableEq

/-- The middleware context (`task-runner.ts`): the watcher's resolved files
and environment-variable names, the command configuration, the process
environment and host versions, plus the run's `Date.now()` and stream oracle. -/
structure MiddlewareCtx where
  files : List FileInput
  environment : List String
  config : CommandConfig
  env : Env
  host : HostInfo
  now : Nat
  oracle : LocalCacheOracle

/-! ## The task-runner middleware chain (`src/task-runner.ts`)

`TaskRunner.execute` drives middlewares in registration order; a middleware
either calls `next()` once (optionally doing work before and after), returns
without calling `next()`, or calls `abort()` — after which no further frame is
entered, while the frames that already called `next()` still run their
post-`next` work.  Every middleware in this development calls `next()` at most
once, so a middleware is a pre-`next` phase returning a `StepDecision`
together with a post-`next` phase. -/

/-- What a middleware's pre-`next` phase did: called `abort()`, called
`next()`, or returned without either. -/
inductive StepDecision where
  | abort
  | next
  | stop
deriving DecidableEq

/-- A middleware as the chain runner sees it. -/
structure MW (St : Type) where
  phase1 : St → St × StepDecision
  phase2 : St → St

/-- `TaskRunner.execute`: run the chain left to right; `abort` and returning
without `next()` both keep the remaining frames (the terminal executor
included) from running, while outer post-`next` phases still unwind. -/
def runChain {St : Type} : List (MW St) → St → St
  | [], st => st
  | m :: rest, st =>
    match m.phase1 st with
    | (st1, .abort) => st1
    | (st1, .stop) => st1
    | (st1, .next) => m.phase2 (runChain rest st1)

/-- The write path for one artifact: pack and store it under its per-artifact
cache name when it exists on disk, skip it (logged as "not present") when not. -/
def storeArtifact (cachePath currentCache : String) (st : CacheSt) (a : Artifact) :
    CacheSt :=
  match mapGet st.disk a.output with
  | none => st
  | some content =>
    let archive : Archive :=
      if filterKeep a.ignore a.output (basename a.output) then
        [(basename a.output, content)]
      else []
    { st with
        trace := st.trace ++ [.store a.output],
        cache := mapSet st.cache (cacheFilePathOf cachePath currentCache a.output) archive }

/-- The cache directory the middleware uses:
`process.env.SHADOWDOG_LOCAL_CACHE_PATH ?? options.path`. -/
def middlewareCachePath (ctx : MiddlewareCtx) (options : LocalCacheOptions) : String :=
  (envValue ctx.env "SHADOWDOG_LOCAL_CACHE_PATH").getD options.path

/-- The cache key of the middleware invocation:
`computeCache(files, environment, config.command)`. -/
def middlewareCacheKey (ctx : MiddlewareCtx) : String :=
  computeCache ctx.files ctx.environment ctx.config.command ctx.env ctx.host

/-- The local cache middleware: compute the cache key; with reading enabled,
restore from cache and `abort()` when every artifact was reused; after
`next()`, with writing enabled, store each produced artifact.  The
`SHADOWDOG_DISABLE_LOCAL_CACHE` kill switch short-circuits to `next()`. -/
def localCacheMiddleware (ctx : MiddlewareCtx) (options : LocalCacheOptions) :
    MW CacheSt where
  phase1 st :=
    if envTruthy ctx.env "SHADOWDOG_DISABLE_LOCAL_CACHE" then (st, .next)
    else
      let readCache := envBoolFlag ctx.env "SHADOWDOG_LOCAL_CACHE_READ" options.read
      if readCache then
        let (st', hasBeenRestored) :=
          restoreCache (middlewareCachePath ctx options) (middlewareCacheKey ctx)
            ctx.now ctx.oracle ctx.config.artifacts st
        if hasBeenRestored then (st', .abort) else (st', .next)
      else (st, .next)
  phase2 st :=
    if envTruthy ctx.env "SHADOWDOG_DISABLE_LOCAL_CACHE" then st
    else
      let writeCache := envBoolFlag ctx.env "SHADOWDOG_LOCAL_CACHE_WRITE" options.write
      if writeCache then
        ctx.config.artifacts.foldl
          (storeArtifact (middlewareCachePath ctx options) (middlewareCacheKey ctx)) st
      else st

/-- The terminal executor frame the Generator appends: spawn the shell
command; it never calls `next()`. -/
def terminalExecutor (config : CommandConfig) : MW CacheSt where
  phase1 st := ({ st with trace := st.trace ++ [.spawn config.command] }, .stop)
  phase2 := id

/-- How many terminal-executor spawns a trace holds. -/
def spawnCount (trace : List CacheEffect) : Nat :=
  (trace.filter fun e => match e with | .spawn _ => true | _ => false).length

/-- How many cache stores a trace holds. -/
def storeCount (trace : List CacheEffect) : Nat :=
  (trace.filter fun e => match e with | .store _ => true | _ => false).length

/-! ## The Task tree (`src/generate.ts`) -/

/-- The Task sum type: a resolved command with its file and environment-name
lists, parallel and serial composites, and the empty task. -/
inductive Task where
  | command (config : CommandConfig) (files : List String) (environment : List String)
  | parallel (tasks : List Task)
  | serial (tasks : List Task)
  | empty

mutual

/-- Structural equality of tasks. -/
def taskBEq : Task → Task → Bool
  | .command c₁ f₁ e₁, .command c₂ f₂ e₂ => c₁ == c₂ && f₁ == f₂ && e₁ == e₂
  | .parallel t₁, .parallel t₂ => taskListBEq t₁ t₂
  | .serial t₁, .serial t₂ => taskListBEq t₁ t₂
  | .empty, .empty => true
  | _, _ => false

/-- Structural equality of task lists. -/
def taskListBEq : List Task → List Task → Bool
  | [], [] => true
  | a :: l, b :: r => taskBEq a b && taskListBEq l r
  | _, _ => false

end

instance : BEq Task := ⟨taskBEq⟩

/-- Is this a `command` leaf? (`filterCommandTasks` predicate.) -/
def isCommandTask : Task → Bool
  | .command _ _ _ => true
  | _ => false

/-- The declared input files of a command task. -/
def taskFiles : Task → List String
  | .command _ files _ => files
  | _ => []

/-- The artifact output paths of a command task. -/
def taskOutputs : Task → List String
  | .command config _ _ => config.artifacts.map (·.output)
  | _ => []

/-! ## The dependency graph (`src/dependencyGraph.ts`, dependency-layering plugin)

`DependencyGraph` keys its node map by object reference, so nodes are indices
into the input list here.  `buildGraph` first fills `outputIndex`
(`Map<string, T>`, later producers overwriting earlier ones), then adds a
dependency edge from each object to the indexed producer of each of its files.
`topologicalSort` is the depth-first search of the source with the `temp` /
`visited` sets and the `levels` map in completion order; a `temp` hit throws
`'Circular dependency detected'`.  The JavaScript recursion is driven here by
fuel, with `none` meaning the fuel ran out (never the case for the fuel
`topologicalSort` supplies, but kept apart from the cycle error so the two
cannot be conflated). -/

/-- `DependencyObject`: the files a node depends on, the outputs it produces. -/
structure DependencyObject where
  files : List String
  outputs : List String
deriving DecidableEq

/-- The `DependencyObject` view of a command task. -/
def depObjOf (t : Task) : DependencyObject :=
  ⟨taskFiles t, taskOutputs t⟩

/-- `outputIndex`: output path to the index of its (last) producer. -/
def buildOutputIndex (objs : List DependencyObject) : List (String × Nat) :=
  objs.enum.foldl
    (fun idx p => p.2.outputs.foldl (fun idx out => mapSet idx out p.1) idx) []

/-- Append an element to an insertion-ordered set unless already present
(`Set.prototype.add`). -/
def insertUnique (l : List Nat) (x : Nat) : List Nat :=
  if l.contains x then l else l ++ [x]

/-- The dependency edges of one object: the indexed producer of each of its
files, in file order, deduplicated as the `Set` of the source is. -/
def depsOf (outIdx : List (String × Nat)) (obj : DependencyObject) : List Nat :=
  obj.files.foldl
    (fun acc f =>
      match mapGet outIdx f with
      | some j => insertUnique acc j
      | none => acc)
    []

/-- The mutable state of `topologicalSort`: the `visited` and `temp` sets and
the `levels` map in insertion (completion) order. -/
structure VisitSt where
  visited : Finset Nat
  temp : Finset Nat
  levels : List (Nat × Nat)

/-- The outcome of a `visit` call: `none` when the fuel ran out, a thrown
cycle error, or the updated state with the node's level. -/
abbrev VisitResult := Option (Except String (VisitSt × Nat))

mutual

/-- `visit(node, level)` of `topologicalSort`: a `temp` hit throws, a
`visited` hit returns the cached level, and otherwise the node enters `temp`,
its dependencies are visited at `level + 1`, and the node completes at
`max(level, max over deps (depLevel + 1))`. -/
def visit (deps : Nat → List Nat) : Nat → VisitSt → Nat → Nat → VisitResult
  | 0, _, _, _ => none
  | fuel + 1, st, node, level =>
    if node ∈ st.temp then some (.error "Circular dependency detected")
    else if node ∈ st.visited then some (.ok (st, (mapGet st.levels node).getD 0))
    else
      match visitDeps deps fuel { st with temp := insert node st.temp }
          (deps node) (level + 1) level with
      | none => none
      | some (.error e) => some (.error e)
      | some (.ok (st', maxChildLevel)) =>
        some (.ok (⟨insert node st'.visited, st'.temp.erase node,
          st'.levels ++ [(node, maxChildLevel)]⟩, maxChildLevel))
termination_by fuel _ _ _ => (fuel, 0)

/-- The `for (const dep of node.dependencies)` loop of `visit`, threading the
state and accumulating `maxChildLevel`. -/
def visitDeps (deps : Nat → List Nat) :
    Nat → VisitSt → List Nat → Nat → Nat → VisitResult
  | _, st, [], _, acc => some (.ok (st, acc))
  | fuel, st, d :: ds, childLevel, acc =>
    match visit deps fuel st d childLevel with
    | none => none
    | some (.error e) => some (.error e)
    | some (.ok (st', l)) => visitDeps deps fuel st' ds childLevel (max acc (l + 1))
termination_by fuel _ ds _ _ => (fuel, ds.length + 1)

end


/-- The `for (const node of this.nodes.values())` loop of `topologicalSort`:
visit every unvisited node at level 0. -/
def topoSortAux (deps : Nat → List Nat) (n : Nat) :
    List Nat → VisitSt → Option (Except String VisitSt)
  | [], st => some (.ok st)
  | i :: is, st =>
    if i ∈ st.visited then topoSortAux deps n is st
    else
      match visit deps (n + 1) st i 0 with
      | none => none
      | some (.error e) => some (.error e)
      | some (.ok (st', _)) => topoSortAux deps n is st'

/-- `topologicalSort` over `n` nodes: the completed `levels` map (node index
to level, in completion order), or the thrown cycle error. -/
def topologicalSort (deps : Nat → List Nat) (n : Nat) :
    Option (Except String (List (Nat × Nat))) :=
  match topoSortAux deps n (List.range n) ⟨∅, ∅, []⟩ with
  | none => none
  | some (.error e) => some (.error e)
  | some (.ok st) => some (.ok st.levels)

/-- Group the completed `levels` map by level (`this.levels`): keys appear in
first-appearance order, each level's nodes in completion order. -/
def groupLevels (levels : List (Nat × Nat)) : List (Nat × List Nat) :=
  levels.foldl
    (fun acc p =>
      match mapGet acc p.2 with
      | some ns => mapSet acc p.2 (ns ++ [p.1])
      | none => acc ++ [(p.2, [p.1])])
    []

/-- Sort groups by ascending level: `Object.values(structure.byLevel)`
enumerates the integer-keyed object in ascending numeric key order. -/
def sortByKey (l : List (Nat × List Nat)) : List (Nat × List Nat) :=
  List.insertionSort (fun a b => a.1 ≤ b.1) l

/-- The layers of node indices the plugin turns into `Parallel` tasks: levels
ascending, nodes within a level in completion order. -/
def layerIndices (objs : List DependencyObject) :
    Option (Except String (List (List Nat))) :=
  let outIdx := buildOutputIndex objs
  let deps := fun i => depsOf outIdx (objs.getD i ⟨[], []⟩)
  match topologicalSort deps objs.length with
  | none => none
  | some (.error e) => some (.error e)
  | some (.ok levels) => some (.ok ((sortByKey (groupLevels levels)).map (·.2)))

/-- `organizeTasksInLayers`: split off the command tasks, build and sort the
dependency graph, and return a `Serial` of `Parallel` layers with the
non-command tasks appended. -/
def organizeTasksInLayers (tasks : List Task) : Option (Except String Task) :=
  let commandTasks := tasks.filter isCommandTask
  let otherTasks := tasks.filter (fun t => !isCommandTask t)
  match layerIndices (commandTasks.map depObjOf) with
  | none => none
  | some (.error e) => some (.error e)
  | some (.ok layers) =>
    some (.ok (.serial
      ((layers.map (fun ns => Task.parallel (ns.filterMap (fun i => commandTasks[i]?)))) ++
        otherTasks)))

/-- The dependency-layering plugin's `command` transform: reorganize a
top-level `Parallel`, leave any other task untouched. -/
def dependenciesCommand (task : Task) : Option (Except String Task) :=
  match task with
  | .parallel tasks => organizeTasksInLayers tasks
  | t => some (.ok t)

mutual

/-- The shell commands `processTask` would spawn for a task tree, in traversal
order. -/
def executedCommands : Task → List String
  | .command config _ _ => [config.command]
  | .parallel tasks => executedCommandsList tasks
  | .serial tasks => executedCommandsList tasks
  | .empty => []

/-- `executedCommands` over a task list. -/
def executedCommandsList : List Task → List String
  | [] => []
  | t :: ts => executedCommands t ++ executedCommandsList ts

end

/-- `generate` with the dependency-layering plugin configured: the plugin
rewrites the top-level `Parallel` of the watchers' command tasks *before*
`processTask` walks anything, so a thrown cycle error propagates with no
command spawned; on success the rewritten tree is walked. -/
def generateWithDependenciesPlugin (watcherTasks : List Task) :
    Option (Except String (List String)) :=
  match dependenciesCommand (.parallel watcherTasks) with
  | none => none
  | some (.error e) => some (.error e)
  | some (.ok t) => some (.ok (executedCommands t))

/-- The layer task lists of an organized result. -/
def layerTaskLists : Task → List (List Task)
  | .serial ls => ls.map (fun l => match l with | .parallel ts => ts | t => [t])
  | _ => []

/-- Index of the first layer containing a task. -/
def layerPosOf (layers : List (List Task)) (t : Task) : Option Nat :=
  layers.findIdx? (fun l => l.contains t)

/-- Is `l` an order-preserving subsequence of `r`? -/
def isSublistB : List Task → List Task → Bool
  | [], _ => true
  | _ :: _, [] => false
  | a :: l, b :: r => if a == b then isSublistB l r else isSublistB (a :: l) r

/-- Does `sub` occur as a substring of `s`? -/
def containsSubstrB (s sub : String) : Bool :=
  hasOccurrence sub.toList s.toList

/-- Claim C6, as stated, evaluated at one input: whenever the plugin returns a
layering, (a) every layer preserves the original task order (is an
order-preserving subsequence of the input), and (b) for every pair of distinct
commands where one's declared input file equals the other's artifact output,
the producer's layer strictly precedes the consumer's layer. -/
def claimC6Holds (tasks : List Task) : Bool :=
  match organizeTasksInLayers tasks with
  | some (.ok result) =>
    let layers := layerTaskLists result
    let cmds := tasks.filter isCommandTask
    (layers.all (fun l => isSublistB l tasks)) &&
      (cmds.all fun p => cmds.all fun c =>
        p == c ||
          (taskOutputs p).all fun f =>
            !((taskFiles c).contains f) ||
              (match layerPosOf layers p, layerPosOf layers c with
               | some ip, some ic => decide (ip < ic)
               | _, _ => false))
  | _ => true

/-! ## Pause, pending changes and replay (daemon + MCP plugin)

The composed state machine of the daemon (`runDaemon` / `setupWatchers`) and
the MCP plugin, as the sources wire them together:

* the MCP `pause` tool sets the plugin's module-level `isPaused` and emits
  `'pause'`; the daemon's `'pause'` listener sets its own `isPaused`;
* the daemon's debounced `onFileChange` handler, when the daemon is paused,
  logs "File change ignored due to pause" and *returns* — it does not record
  the path anywhere and emits no event; otherwise it kills pending tasks and
  drives the pipeline for the watcher's commands;
* the MCP plugin's `handleFileChange` records a path into its deduplicated
  `pendingChangedFiles` list while the plugin is paused — but it is only ever
  invoked from the plugin's own `'changed'` bus listener, and no production
  code emits `'changed'`;
* the MCP `resume` tool clears both paused flags (via `'resume'`) and then
  `replayPendingChanges` touches (`utimesSync`) each recorded path — so each
  would re-enter the watch pipeline — and clears the list. -/

/-- The events that drive the pause/replay machinery. -/
inductive DaemonEvent where
  | mcpPauseTool
  | mcpResumeTool
  /-- A debounced watcher callback for a changed path (daemon `onFileChange`). -/
  | fsChange (path : String)
  /-- A `'changed'` event on the bus (feeds the MCP plugin's
  `handleFileChange`; emitted by no production code). -/
  | busChanged (path : String)

/-- The combined daemon + MCP plugin state. -/
structure PauseSt where
  mcpPaused : Bool
  daemonPaused : Bool
  pendingChangedFiles : List String
  /-- Paths whose pipeline ran (one entry per `onFileChange` pipeline drive). -/
  invocations : List String
  /-- Paths touched by `replayPendingChanges` (`utimesSync`). -/
  touched : List String
deriving DecidableEq

/-- The initial state: not paused, nothing pending. -/
def initPauseSt : PauseSt := ⟨false, false, [], [], []⟩

/-- One event step of the composed machine (see the section comment for the
source lines each arm transcribes). -/
def stepEvent (st : PauseSt) : DaemonEvent → PauseSt
  | .mcpPauseTool =>
    { st with mcpPaused := true, daemonPaused := true }
  | .mcpResumeTool =>
    { st with
        mcpPaused := false
        daemonPaused := false
        touched := st.touched ++ st.pendingChangedFiles
        pendingChangedFiles := [] }
  | .fsChange p =>
    if st.daemonPaused then st
    else { st with invocations := st.invocations ++ [p] }
  | .busChanged p =>
    if st.mcpPaused && !(st.pendingChangedFiles.contains p) then
      { st with pendingChangedFiles := st.pendingChangedFiles ++ [p] }
    else st

/-- Run a sequence of events from a state. -/
def runEvents (events : List DaemonEvent) (st : PauseSt) : PauseSt :=
  events.foldl stepEvent st

/-! ## Layer positions and the sorting invariant

Helpers for stating and proving where a node lands among the layers, and the
invariant the depth-first search of `topologicalSort` maintains. -/

/-- The index of the first layer containing node `i`. -/
def idxPos : List (List Nat) → Nat → Option Nat
  | [], _ => none
  | ns :: rest, i => if ns.contains i then some 0 else (idxPos rest i).map (· + 1)

/-- The index of the first group whose node list contains `i`. -/
def groupPos : List (Nat × List Nat) → Nat → Option Nat
  | [], _ => none
  | g :: rest, i => if g.2.contains i then some 0 else (groupPos rest i).map (· + 1)

/-- The invariant of `topologicalSort`'s search state: every visited node has
a recorded level, the recorded nodes are exactly visited ones (without
duplicates), and every dependency edge out of a visited node already satisfies
the layering inequality `level(dep) + 1 ≤ level(node)`. -/
def GoodSt (deps : Nat → List Nat) (st : VisitSt) : Prop :=
  (∀ i ∈ st.visited, (mapGet st.levels i).isSome) ∧
  (∀ p ∈ st.levels, p.1 ∈ st.visited) ∧
  (st.levels.map Prod.fst).Nodup ∧
  (∀ i ∈ st.visited, ∀ d ∈ deps i,
    ∃ ld li, mapGet st.levels d = some ld ∧ mapGet st.levels i = some li ∧ ld + 1 ≤ li)

/-- What an `ok` return of `visit` / `visitDeps` guarantees relative to the
entry state: the invariant is kept, the visited set only grows, the `temp`
set is restored, already-recorded levels are stable, and no member of the
ambient `temp` set becomes newly visited. -/
def VisitOut (deps : Nat → List Nat) (st st' : VisitSt) : Prop :=
  GoodSt deps st' ∧ st.visited ⊆ st'.visited ∧ st'.temp = st.temp ∧
  (∀ k, (mapGet st.levels k).isSome → mapGet st'.levels k = mapGet st.levels k) ∧
  (∀ x ∈ st.temp, x ∈ st'.visited → x ∈ st.visited)

/-- The fuel-indexed induction statement for `visit`: an `ok` return moreover
records the visited node at the returned level. -/
def VisitP (fuel : Nat) : Prop :=
  ∀ (deps : Nat → List Nat) (st : VisitSt) (node level : Nat) (st' : VisitSt) (l : Nat),
    GoodSt deps st → visit deps fuel st node level = some (.ok (st', l)) →
    VisitOut deps st st' ∧ node ∈ st'.visited ∧ mapGet st'.levels node = some l

/-- The fuel-indexed induction statement for `visitDeps`: an `ok` return
bounds the accumulator from below and records every listed dependency at a
level strictly below the returned maximum. -/
def VisitDepsP (fuel : Nat) : Prop :=
  ∀ (deps : Nat → List Nat) (st : VisitSt) (ds : List Nat) (childLevel acc : Nat)
    (st' : VisitSt) (m : Nat),
    GoodSt deps st → visitDeps deps fuel st ds childLevel acc = some (.ok (st', m)) →
    VisitOut deps st st' ∧ acc ≤ m ∧
    ∀ d ∈ ds, ∃ ld, mapGet st'.levels d = some ld ∧ ld + 1 ≤ m

/-- One step of the `groupLevels` fold, named so the fold can be reasoned
about generically. -/
def groupStep (acc : List (Nat × List Nat)) (p : Nat × Nat) : List (Nat × List Nat) :=
  match mapGet acc p.2 with
  | some ns => mapSet acc p.2 (ns ++ [p.1])
  | none => acc ++ [(p.2, [p.1])]

instance : IsTotal (Nat × List Nat) (fun a b => a.1 ≤ b.1) :=
  ⟨fun a b => Nat.le_total a.1 b.1⟩

instance : IsTrans (Nat × List Nat) (fun a b => a.1 ≤ b.1) :=
  ⟨fun _ _ _ h h' => Nat.le_trans h h'⟩

/-! ## Concrete inputs used by the counterexamples and witnesses -/

/-- A one-artifact command task: command name, artifact output, input files. -/
def mkCommandTask (name output : String) (files : List String) : Task :=
  Task.command { command := name, artifacts := [{ output := output }] } files []

/-- Consumes `s.out`, produces `p.out`. -/
def layerTaskP : Task := mkCommandTask "P" "p.out" ["s.out"]

/-- Consumes `q.out`, produces `r.out`. -/
def layerTaskR : Task := mkCommandTask "R" "r.out" ["q.out"]

/-- Produces `q.out`. -/
def layerTaskQ : Task := mkCommandTask "Q" "q.out" []

/-- Produces `s.out`. -/
def layerTaskS : Task := mkCommandTask "S" "s.out" []

/-- Four commands whose depth-first completion order differs from their
configuration order: `P` before `R` before `Q` before `S`. -/
def layerExampleOne : List Task := [layerTaskP, layerTaskR, layerTaskQ, layerTaskS]

/-- Produces `x.out` (shadowed by `layerTaskB`), consumes `y.out`. -/
def layerTaskA : Task := mkCommandTask "A" "x.out" ["y.out"]

/-- Also produces `x.out` — the `Map` index keeps only this later producer. -/
def layerTaskB : Task := mkCommandTask "B" "x.out" []

/-- Consumes `x.out`, produces `y.out`. -/
def layerTaskC : Task := mkCommandTask "C" "y.out" ["x.out"]

/-- Two producers of the same output plus one consumer: the output index maps
`x.out` to the later producer `B` only, so no edge orders `A` before `C`. -/
def layerExampleTwo : List Task := [layerTaskA, layerTaskB, layerTaskC]

/-- `build-schema` of the dependency-layering scenario. -/
def buildSchemaTask : Task := mkCommandTask "build-schema" "schema.json" ["schema.rb"]

/-- `build-client` of the dependency-layering scenario. -/
def buildClientTask : Task := mkCommandTask "build-client" "client.ts" ["schema.json"]

/-- Each consumes the other's output: a dependency cycle. -/
def cycleTaskA : Task := mkCommandTask "build-a" "a.out" ["b.out"]

/-- The other half of the cycle. -/
def cycleTaskB : Task := mkCommandTask "build-b" "b.out" ["a.out"]

/-- The single demo artifact of the cache-middleware witnesses. -/
def demoArtifact : Artifact := { output := "dist/app.txt" }

/-- A copy command producing the demo artifact. -/
def demoConfig : CommandConfig :=
  { command := "cp src/app.txt dist/app.txt", artifacts := [demoArtifact] }

/-- Host versions of the witnesses. -/
def demoHost : HostInfo := ⟨"1.0.0", "v20.11.0"⟩

/-- A middleware invocation context over one watched file and no process
environment. -/
def demoCtx : MiddlewareCtx :=
  { files := [⟨"src/app.txt", "hello"⟩], environment := [], config := demoConfig,
    env := [], host := demoHost, now := 7, oracle := {} }

/-- Options pointing the cache at `tmp/cache`. -/
def demoOptions : LocalCacheOptions := { path := "tmp/cache" }

/-- A state whose cache holds the demo artifact's archive while the artifact
is absent on disk: a full cache hit restores it. -/
def demoHitSt : CacheSt :=
  { disk := [],
    cache := [(cacheFilePathOf (middlewareCachePath demoCtx demoOptions)
      (middlewareCacheKey demoCtx) "dist/app.txt", [("app.txt", "hello")])],
    trace := [] }

/-- A state where the artifact exists on disk with exactly the cached bytes:
the SHA verification skips the restore. -/
def demoShaSt : CacheSt :=
  { disk := [("dist/app.txt", "hello")],
    cache := [(cacheFilePathOf "tmp/cache" "k0" "dist/app.txt", [("app.txt", "hello")])],
    trace := [] }

/-- A context whose command declares no artifacts. -/
def demoCtxNoArtifacts : MiddlewareCtx :=
  { demoCtx with config := { command := "echo hi" } }

/-- An artifact filesystem timeline that becomes ready (a readable 5-byte
file) from the second poll on. -/
def demoFsReady : Nat → Option FsEntry :=
  fun t => if t < 2 then none else some (.file true 5)

/-- An artifact filesystem timeline stuck at a readable 0-byte file. -/
def demoFsEmptyFile : Nat → Option FsEntry :=
  fun _ => some (.file true 0)

/-! # Theorems

The remainder of the file proves properties of the embedded code.  Helper
lemmas come first, then one theorem per specification claim (each marked with
its claim id), with witnesses instantiating the theorems that carry
hypotheses. -/

/-- UTF-8 encoding distributes over string concatenation. -/
theorem utf8Bytes_append (a b : String) :
    utf8Bytes (a ++ b) = utf8Bytes a ++ utf8Bytes b := by
  simp [utf8Bytes, String.toList, String.data_append]

/-- Two streaming updates amount to one update with the concatenation. -/
theorem hashUpdate_hashUpdate (buf : List Nat) (a b : String) :
    hashUpdate (hashUpdate buf a) b = hashUpdate buf (a ++ b) := by
  simp [hashUpdate, utf8Bytes_append]

/-- `String.join` unfolds one element at a time. -/
theorem join_cons (a : String) (l : List String) :
    String.join (a :: l) = a ++ String.join l := by
  apply String.ext
  simp [String.join_eq, String.data_append]

/-- The per-file update loop of `computeCache` appends the UTF-8 bytes of
each path immediately followed by that file's contents. -/
theorem foldl_hashUpdate_files (files : List FileInput) (buf : List Nat) :
    files.foldl (fun b f => hashUpdate (hashUpdate b f.path) f.contents) buf =
      buf ++ utf8Bytes (String.join (files.map fun f => f.path ++ f.contents)) := by
  induction files generalizing buf with
  | nil => simp [String.join, utf8Bytes]
  | cons f rest ih =>
    rw [List.foldl_cons, ih, List.map_cons, join_cons]
    simp [hashUpdate, utf8Bytes_append]

/-- The environment-value update loop of `computeCache` appends the UTF-8
bytes of each variable's value (the empty string when unset). -/
theorem foldl_hashUpdate_env (env : Env) (names : List String) (buf : List Nat) :
    names.foldl (fun b name => hashUpdate b ((envValue env name).getD "")) buf =
      buf ++ utf8Bytes (String.join (names.map fun name => (envValue env name).getD "")) := by
  induction names generalizing buf with
  | nil => simp [String.join, utf8Bytes]
  | cons n rest ih =>
    rw [List.foldl_cons, ih, List.map_cons, join_cons]
    simp [hashUpdate, utf8Bytes_append]

/-- `computeCache` equals the ten-character truncation of the keyed digest of
the ordered byte transcript. -/
theorem computeCache_eq_transcriptDigest (files : List FileInput)
    (environment : List String) (command : String) (env : Env) (host : HostInfo) :
    computeCache files environment command env host =
      sliceFirst (bytesToHex (hmacSha1 []
        (utf8Bytes (cacheTranscript files environment command env host)))) 10 := by
  simp only [computeCache, cacheTranscript]
  rw [foldl_hashUpdate_files, foldl_hashUpdate_env]
  simp [hashUpdate, utf8Bytes_append]

/-- SHA-1 always yields 20 bytes. -/
theorem sha1_length (msg : List Nat) : (sha1 msg).length = 20 := by
  unfold sha1
  generalize (chunks16 (bytesToWords (shaPad msg))).foldl sha1Block
    (1732584193, 4023233417, 2562383102, 271733878, 3285377520) = t
  obtain ⟨a, b, c, d, e⟩ := t
  simp [wordBytes]

/-- HMAC-SHA1 always yields 20 bytes. -/
theorem hmacSha1_length (key msg : List Nat) : (hmacSha1 key msg).length = 20 := by
  simp only [hmacSha1, hmac]
  exact sha1_length _

/-- SHA-1 output bytes are bytes. -/
theorem sha1_lt (msg : List Nat) : ∀ b ∈ sha1 msg, b < 256 := by
  unfold sha1
  generalize (chunks16 (bytesToWords (shaPad msg))).foldl sha1Block
    (1732584193, 4023233417, 2562383102, 271733878, 3285377520) = t
  obtain ⟨a, b, c, d, e⟩ := t
  intro x hx
  simp [wordBytes] at hx
  rcases hx with h | h | h | h | h <;> rcases h with h | h | h | h <;> omega

/-- HMAC-SHA1 output bytes are bytes. -/
theorem hmacSha1_lt (key msg : List Nat) : ∀ b ∈ hmacSha1 key msg, b < 256 := by
  simp only [hmacSha1, hmac]
  exact sha1_lt _

/-- Hexadecimal rendering doubles the length. -/
theorem bytesToHex_length (bytes : List Nat) :
    (bytesToHex bytes).length = 2 * bytes.length := by
  induction bytes with
  | nil => rfl
  | cons b rest ih =>
    simp only [bytesToHex, String.length, List.map_cons, List.flatten_cons] at ih ⊢
    simp only [List.length_append, List.length_cons, List.length_nil] at ih ⊢
    omega

/-- Characters of a hexadecimal rendering of bytes are hex digits. -/
theorem bytesToHex_mem (bytes : List Nat) (hb : ∀ b ∈ bytes, b < 256) :
    ∀ c ∈ (bytesToHex bytes).data, c ∈ ("0123456789abcdef").data := by
  induction bytes with
  | nil => simp [bytesToHex]
  | cons b rest ih =>
    intro c hc
    simp only [bytesToHex, List.map_cons, List.flatten_cons] at hc
    have hb256 : b < 256 := hb b (by simp)
    rcases List.mem_append.mp hc with h | h
    · have hx : ∀ n, n < 16 → hexDigit n ∈ ("0123456789abcdef").data := by decide
      rcases h with _ | ⟨_, h⟩
      · exact hx _ (by omega)
      · rcases h with _ | ⟨_, h⟩
        · exact hx _ (by omega)
        · cases h
    · exact ih (fun x hx => hb x (by simp [hx])) c h

/-- **C1.** The cache key is exactly ten hexadecimal characters of the keyed
digest updated in this order: for every file in the given order, the file's
path then its contents; then each listed environment variable's current value
(the empty string when the variable is unset, never the literal
`"undefined"`); then the command string; then the tool version; then the Node
runtime version — stated as the digest of `cacheTranscript`, which
concatenates exactly those strings in exactly that order. -/
theorem computeCache_transcript_order (files : List FileInput)
    (environment : List String) (command : String) (env : Env) (host : HostInfo) :
    (computeCache files environment command env host =
      sliceFirst (bytesToHex (hmacSha1 []
        (utf8Bytes (cacheTranscript files environment command env host)))) 10) ∧
    (computeCache files environment command env host).length = 10 ∧
    ∀ c ∈ (computeCache files environment command env host).data,
      c ∈ ("0123456789abcdef").data := by
  refine ⟨computeCache_eq_transcriptDigest .., ?_, ?_⟩
  · rw [computeCache_eq_transcriptDigest]
    have h40 : (bytesToHex (hmacSha1 []
        (utf8Bytes (cacheTranscript files environment command env host)))).length = 40 := by
      rw [bytesToHex_length, hmacSha1_length]
    simp only [sliceFirst, String.length] at h40 ⊢
    simp [List.length_take, h40]
  · intro c hc
    rw [computeCache_eq_transcriptDigest] at hc
    simp only [sliceFirst] at hc
    exact bytesToHex_mem _ (hmacSha1_lt _ _) c (List.take_subset _ _ hc)

/-- **C5, counterexample.** Two inputs that differ (different file paths and
contents) but concatenate to the same byte transcript receive the same cache
key, so distinct inputs do not always give distinct keys. -/
theorem computeCache_not_injective :
    computeCache [⟨"ab", "c"⟩] [] "x" [] ⟨"v", "n"⟩ =
      computeCache [⟨"a", "bc"⟩] [] "x" [] ⟨"v", "n"⟩ ∧
    ([⟨"ab", "c"⟩] : List FileInput) ≠ [⟨"a", "bc"⟩] := by
  constructor
  · rw [computeCache_eq_transcriptDigest, computeCache_eq_transcriptDigest]
    rfl
  · decide

/-- **C5, amended.** The cache key is a function of the ordered byte
transcript alone: equal transcripts give equal keys (in particular, equal
inputs give equal keys).  The converse — distinct inputs give distinct keys —
holds only up to digest collisions; inputs whose transcripts coincide (see the
counterexample) always collide. -/
theorem computeCache_determined_by_transcript
    (f₁ : List FileInput) (e₁ : List String) (c₁ : String) (env₁ : Env) (h₁ : HostInfo)
    (f₂ : List FileInput) (e₂ : List String) (c₂ : String) (env₂ : Env) (h₂ : HostInfo)
    (h : cacheTranscript f₁ e₁ c₁ env₁ h₁ = cacheTranscript f₂ e₂ c₂ env₂ h₂) :
    computeCache f₁ e₁ c₁ env₁ h₁ = computeCache f₂ e₂ c₂ env₂ h₂ := by
  rw [computeCache_eq_transcriptDigest, computeCache_eq_transcriptDigest, h]

/-- Witness for the amended C5 theorem at a concrete input pair. -/
theorem computeCache_determined_by_transcript_witness :
    cacheTranscript [⟨"ab", "c"⟩] [] "x" [] ⟨"v", "n"⟩ =
      cacheTranscript [⟨"a", "bc"⟩] [] "x" [] ⟨"v", "n"⟩ ∧
    computeCache [⟨"ab", "c"⟩] [] "x" [] ⟨"v", "n"⟩ =
      computeCache [⟨"a", "bc"⟩] [] "x" [] ⟨"v", "n"⟩ :=
  ⟨rfl, computeCache_determined_by_transcript [⟨"ab", "c"⟩] [] "x" [] ⟨"v", "n"⟩
    [⟨"a", "bc"⟩] [] "x" [] ⟨"v", "n"⟩ rfl⟩

/-- A pattern matches at the head of itself followed by anything. -/
theorem leadMatch_append_self (pat rest : List Char) :
    leadMatch pat (pat ++ rest) = true := by
  induction pat with
  | nil => rfl
  | cons p ps ih => simp [leadMatch, ih]

/-- Splitting at the head occurrence: the prefix is empty and the tail is
kept. -/
theorem splitFirst_head (pat b : List Char) :
    splitFirst pat (pat ++ b) = some ([], b) := by
  cases hpb : pat ++ b with
  | nil =>
    rcases List.append_eq_nil.mp hpb with ⟨rfl, rfl⟩
    simp [splitFirst, leadMatch]
  | cons c rest =>
    simp only [splitFirst]
    rw [if_pos (by rw [← hpb]; exact leadMatch_append_self pat b)]
    rw [← hpb, List.drop_left]

/-- Characters before the first occurrence are returned as the prefix: when
no character of `a` equals the pattern's first character, the split happens
exactly past `a`. -/
theorem splitFirst_skip (p₀ : Char) (pt b a : List Char) (ha : ∀ c ∈ a, c ≠ p₀) :
    splitFirst (p₀ :: pt) (a ++ (p₀ :: pt) ++ b) = some (a, b) := by
  induction a with
  | nil => simpa using splitFirst_head (p₀ :: pt) b
  | cons c rest ih =>
    have hc : (p₀ == c) = false := beq_false_of_ne (Ne.symm (ha c (by simp)))
    rw [List.cons_append, List.cons_append]
    simp only [splitFirst]
    rw [if_neg (by simp [leadMatch, hc]), ih (fun x hx => ha x (by simp [hx]))]

/-- With no occurrence of the pattern there is no split. -/
theorem splitFirst_no_occurrence (pat s : List Char) (h : hasOccurrence pat s = false) :
    splitFirst pat s = none := by
  induction s with
  | nil =>
    simp only [hasOccurrence] at h
    simp [splitFirst, h]
  | cons c rest ih =>
    simp only [hasOccurrence, Bool.or_eq_false_iff] at h
    simp only [splitFirst]
    rw [if_neg (by simp [h.1]), ih h.2]

/-- A replacement string without a dollar sign passes through
`GetSubstitution` verbatim. -/
theorem getSubstitution_no_dollar (m bf af : List Char) :
    ∀ (repl : List Char), (∀ c ∈ repl, c ≠ '$') → getSubstitution m bf af repl = repl := by
  intro repl
  induction repl with
  | nil => intro h; rfl
  | cons c rest ih =>
    intro h
    cases rest with
    | nil => rfl
    | cons d rest2 =>
      simp only [getSubstitution]
      rw [if_neg (h c (by simp)), ih (fun x hx => h x (by simp [hx]))]

/-- **C10, counterexample.** The claim says the first occurrence of `$FILE`
is replaced *with the changed file path*.  JavaScript's `replace` runs
`GetSubstitution` on the replacement, so a path containing the `$&` escape is
not spliced verbatim: `'cp $FILE'.replace('$FILE', 'a$&b')` yields
`cp a$FILEb`, not `cp a$&b`. -/
theorem runTask_dollar_escape_counterexample :
    fullCommand "cp $FILE" (some "a$&b") = "cp a$FILEb" ∧
    fullCommand "cp $FILE" (some "a$&b") ≠ "cp " ++ "a$&b" := by
  constructor
  · decide
  · decide

/-- **C10, amended.** `runTask`'s command preparation: with no changed file
the command passes through unchanged; with a changed file only the *first*
occurrence of the literal token `$FILE` is rewritten — text before it without
a `$` is copied, everything after it (later `$FILE` occurrences included)
reaches the shell verbatim — and what is substituted is the
`GetSubstitution` expansion of the path, which equals the path itself
whenever the path contains no `$`; a command without the token passes through
even when a changed file is given. -/
theorem runTask_fullCommand_spec :
    (∀ command, fullCommand command none = command) ∧
    (∀ (a b p : String), (∀ c ∈ a.data, c ≠ '$') →
        fullCommand (a ++ "$FILE" ++ b) (some p) =
          a ++ String.mk (getSubstitution "$FILE".toList a.data b.data p.data) ++ b) ∧
    (∀ (a b p : String), (∀ c ∈ a.data, c ≠ '$') → (∀ c ∈ p.data, c ≠ '$') →
        fullCommand (a ++ "$FILE" ++ b) (some p) = a ++ p ++ b) ∧
    (∀ (command p : String), hasOccurrence "$FILE".toList command.toList = false →
        fullCommand command (some p) = command) := by
  have hgen : ∀ (a b p : String), (∀ c ∈ a.data, c ≠ '$') →
      fullCommand (a ++ "$FILE" ++ b) (some p) =
        a ++ String.mk (getSubstitution "$FILE".toList a.data b.data p.data) ++ b := by
    intro a b p ha
    show jsReplaceFirst (a ++ "$FILE" ++ b) "$FILE" p = _
    unfold jsReplaceFirst replaceFirstChars
    apply String.ext
    have hts : (a ++ "$FILE" ++ b).toList = a.data ++ ('$' :: "FILE".data) ++ b.data := by
      simp [String.toList, String.data_append]
    have hsp := splitFirst_skip '$' "FILE".data b.data a.data ha
    simp only [String.toList] at hts ⊢
    rw [hts, hsp]
    simp [String.data_append]
  refine ⟨fun _ => rfl, hgen, ?_, ?_⟩
  · intro a b p ha hp
    rw [hgen a b p ha, getSubstitution_no_dollar _ _ _ p.data hp]
  · intro command p h
    show jsReplaceFirst command "$FILE" p = command
    unfold jsReplaceFirst replaceFirstChars
    rw [show ("$FILE" : String).toList = '$' :: "FILE".data from rfl,
      splitFirst_no_occurrence _ _ (by simpa using h)]
    exact String.ext rfl

/-- Witness for the amended C10 theorem at a concrete command: a `$`-free path
is spliced as-is into the first `$FILE`, the second reaches the shell
verbatim; a command without the token is unchanged. -/
theorem runTask_fullCommand_spec_witness :
    (∀ c ∈ ("cp " : String).data, c ≠ '$') ∧
    (∀ c ∈ ("x.txt" : String).data, c ≠ '$') ∧
    fullCommand ("cp " ++ "$FILE" ++ " dist/$FILE") (some "x.txt") =
      "cp " ++ "x.txt" ++ " dist/$FILE" ∧
    hasOccurrence "$FILE".toList ("echo hi" : String).toList = false ∧
    fullCommand "echo hi" (some "x.txt") = "echo hi" :=
  ⟨by decide, by decide,
    runTask_fullCommand_spec.2.2.1 "cp " " dist/$FILE" "x.txt" (by decide) (by decide),
    by decide, runTask_fullCommand_spec.2.2.2 "echo hi" "x.txt" (by decide)⟩

/-- The polling loop misses exactly when no poll within the budget sees the
artifact ready. -/
theorem waitLoop_none_iff (fsAt : Nat → Option FsEntry) (fuel t : Nat) :
    waitLoop fsAt fuel t = none ↔
      ∀ k < fuel, artifactReadyAt (fsAt (t + k)) = false := by
  induction fuel generalizing t with
  | zero => simp [waitLoop]
  | succ n ih =>
    cases hr : artifactReadyAt (fsAt t) with
    | true =>
      have hw : waitLoop fsAt (n + 1) t = some t := by rw [waitLoop, hr]; simp
      rw [hw]
      constructor
      · intro h; exact Option.noConfusion h
      · intro hall
        have h0 := hall 0 (Nat.succ_pos n)
        rw [Nat.add_zero, hr] at h0
        exact Bool.noConfusion h0
    | false =>
      have hw : waitLoop fsAt (n + 1) t = waitLoop fsAt n (t + 1) := by
        rw [waitLoop, hr]; simp
      rw [hw, ih]
      constructor
      · intro hall k hk
        cases k with
        | zero => rw [Nat.add_zero]; exact hr
        | succ m =>
          have hm := hall m (by omega)
          rw [show t + 1 + m = t + (m + 1) from by omega] at hm
          exact hm
      · intro hall k hk
        have hm := hall (k + 1) (by omega)
        rw [show t + (k + 1) = t + 1 + k from by omega] at hm
        exact hm

/-- Modelled from the spec (C3 support): verifying a list of artifacts
succeeds exactly when each artifact verifies. -/
theorem verifyArtifacts_ok_iff (env : Env) (fs : String → Nat → Option FsEntry)
    (outputs : List String) :
    verifyArtifacts env fs outputs = .ok () ↔
      ∀ o ∈ outputs, verifyArtifact env (fs o) o = .ok () := by
  induction outputs with
  | nil => simp [verifyArtifacts]
  | cons o rest ih =>
    rw [verifyArtifacts]
    cases h : verifyArtifact env (fs o) o with
    | ok u => cases u; simp [h, ih]
    | error e =>
      simp only [List.mem_cons]
      constructor
      · intro hc; exact Except.noConfusion hc
      · intro hall
        have := hall o (Or.inl rfl)
        rw [h] at this
        exact Except.noConfusion this

/-- **C3.** (spec-modelled: the Generator's readiness check is absent from the
available sources; modelled from spec §4.9/§6/§8 and `generate.test.ts`.)
After the terminal executor returns, the Generator polls each declared
artifact at 100 ms intervals up to a retry budget — 50 retries (≈ 5 s) by
default, overridden by `SHADOWDOG_ARTIFACT_WAIT_MAX_RETRIES` — requiring it to
exist, be readable, and be non-empty if it is a file; an artifact ready at
some poll within the budget verifies, one never ready yields the structured
error naming the artifact, and a 0-byte file counts as not ready and fails. -/
theorem generator_artifact_readiness :
    (artifactWaitMaxRetries [] = 50 ∧ artifactWaitMaxRetries [] * pollIntervalMs = 5000) ∧
    (∀ (env : Env) (s : String) (n : Nat),
        envValue env "SHADOWDOG_ARTIFACT_WAIT_MAX_RETRIES" = some s →
        parseNat? s = some n → artifactWaitMaxRetries env = n) ∧
    (∀ (env : Env) (fsAt : Nat → Option FsEntry) (output : String),
        (∃ t < artifactWaitMaxRetries env, artifactReadyAt (fsAt t) = true) →
        verifyArtifact env fsAt output = .ok ()) ∧
    (∀ (env : Env) (fsAt : Nat → Option FsEntry) (output : String),
        (∀ t < artifactWaitMaxRetries env, artifactReadyAt (fsAt t) = false) →
        verifyArtifact env fsAt output = .error ⟨output,
          "Artifact " ++ output ++
            " was not created or is not readable after task completion"⟩) ∧
    (∀ readable : Bool, artifactReadyAt (some (.file readable 0)) = false) := by
  refine ⟨⟨rfl, rfl⟩, ?_, ?_, ?_, ?_⟩
  · intro env s n h1 h2
    unfold artifactWaitMaxRetries
    rw [h1]
    simp [h2]
  · intro env fsAt output ⟨t, ht, hready⟩
    unfold verifyArtifact
    cases hw : waitLoop fsAt (artifactWaitMaxRetries env) 0 with
    | none =>
      have := (waitLoop_none_iff fsAt _ 0).mp hw t ht
      rw [Nat.zero_add] at this
      rw [hready] at this
      exact Bool.noConfusion this
    | some t' => rfl
  · intro env fsAt output hall
    unfold verifyArtifact
    have hw : waitLoop fsAt (artifactWaitMaxRetries env) 0 = none :=
      (waitLoop_none_iff fsAt _ 0).mpr (fun k hk => by
        rw [Nat.zero_add]; exact hall k hk)
    rw [hw]
  · intro readable
    simp [artifactReadyAt]

/-- Witness for C3: a 5-retry override parses; an artifact appearing at the
second poll verifies; a perpetual 0-byte file fails with the structured
error. -/
theorem generator_artifact_readiness_witness :
    artifactWaitMaxRetries [("SHADOWDOG_ARTIFACT_WAIT_MAX_RETRIES", "5")] = 5 ∧
    verifyArtifact [] demoFsReady "output.txt" = .ok () ∧
    verifyArtifact [] demoFsEmptyFile "empty-output.txt" = .error
      ⟨"empty-output.txt",
        "Artifact empty-output.txt was not created or is not readable after task completion"⟩ :=
  ⟨generator_artifact_readiness.2.1 [("SHADOWDOG_ARTIFACT_WAIT_MAX_RETRIES", "5")]
      "5" 5 (by decide) (by decide),
    generator_artifact_readiness.2.2.1 [] demoFsReady "output.txt"
      ⟨2, by decide, by decide⟩,
    by
      have := generator_artifact_readiness.2.2.2.1 [] demoFsEmptyFile
        "empty-output.txt" (by decide)
      simpa using this⟩

/-- **C8.** The claim says a path changed while the daemon is paused is
recorded in the pending-change set and, on resume, replayed so it triggers
exactly one pipeline invocation.  The code does not do this: the daemon's
`onFileChange`, when paused, logs and returns without recording anything and
without emitting `'changed'`, and no production code emits `'changed'` — so
the MCP plugin's `pendingChangedFiles` tracker is never fed by a real
filesystem event.  After `pause`, `fsChange "a.txt"`, `resume` nothing is
pending, nothing is touched, and no pipeline invocation ever happens for the
path (first three conjuncts).  The last two conjuncts show the recording and
replay machinery itself behaves exactly as the claim describes — deduplicated
recording, one touch per path, set cleared — when `'changed'` bus events are
injected the way the plugin's own test does, which marks the missing daemon
emission as the defect. -/
theorem pause_change_resume_drops_changes :
    (runEvents [.mcpPauseTool, .fsChange "a.txt", .mcpResumeTool] initPauseSt).pendingChangedFiles = [] ∧
    (runEvents [.mcpPauseTool, .fsChange "a.txt", .mcpResumeTool] initPauseSt).touched = [] ∧
    (runEvents [.mcpPauseTool, .fsChange "a.txt", .mcpResumeTool] initPauseSt).invocations = [] ∧
    (runEvents [.mcpPauseTool, .busChanged "a.txt", .busChanged "a.txt", .mcpResumeTool]
      initPauseSt).touched = ["a.txt"] ∧
    (runEvents [.mcpPauseTool, .busChanged "a.txt", .busChanged "a.txt", .mcpResumeTool]
      initPauseSt).pendingChangedFiles = [] := by
  refine ⟨rfl, rfl, rfl, ?_, rfl⟩
  decide

/-- Spawn counting distributes over trace concatenation. -/
theorem spawnCount_append (t1 t2 : List CacheEffect) :
    spawnCount (t1 ++ t2) = spawnCount t1 + spawnCount t2 := by
  simp [spawnCount, List.filter_append]

/-- Store counting distributes over trace concatenation. -/
theorem storeCount_append (t1 t2 : List CacheEffect) :
    storeCount (t1 ++ t2) = storeCount t1 + storeCount t2 := by
  simp [storeCount, List.filter_append]

/-- Restoring one artifact spawns no terminal executor and stores nothing:
its effects are only temp extraction/removal and in-place unpacks. -/
theorem restoreArtifact_counts (cachePath currentCache : String) (now : Nat)
    (oracle : LocalCacheOracle) (st : CacheSt) (a : Artifact) :
    spawnCount ((restoreArtifact cachePath currentCache now oracle st a).1.trace) =
        spawnCount st.trace ∧
    storeCount ((restoreArtifact cachePath currentCache now oracle st a).1.trace) =
        storeCount st.trace := by
  unfold restoreArtifact inPlaceRestore
  cases hc : mapGet st.cache (cacheFilePathOf cachePath currentCache a.output) with
  | none => simp [hc]
  | some archive =>
  cases hd : mapGet st.disk a.output with
  | none =>
    cases hip : oracle.inPlaceExtractOk <;>
      simp [hc, hd, hip, spawnCount_append, storeCount_append, spawnCount, storeCount]
  | some c =>
  cases hte : oracle.tempExtractOk with
  | false =>
    cases hip : oracle.inPlaceExtractOk <;>
      simp [hc, hd, hte, hip, spawnCount_append, storeCount_append, spawnCount, storeCount]
  | true =>
  cases hk : filterKeep a.ignore a.output (basename a.output) with
  | false =>
    cases hip : oracle.inPlaceExtractOk <;>
      simp [hc, hd, hte, hk, hip, spawnCount_append, storeCount_append, spawnCount, storeCount]
  | true =>
  cases he : mapGet archive (basename a.output) with
  | none =>
    cases hip : oracle.inPlaceExtractOk <;>
      simp [hc, hd, hte, hk, he, hip, spawnCount_append, storeCount_append, spawnCount,
        storeCount]
  | some extractedContent =>
  cases hsha : shaMatch (some (shortSha256 extractedContent))
      (computeArtifactContentSha st.disk a.output) with
  | true =>
    simp [hc, hd, hte, hk, he, hsha, spawnCount_append, storeCount_append, spawnCount,
      storeCount]
  | false =>
    cases hip : oracle.inPlaceExtractOk <;>
      simp [hc, hd, hte, hk, he, hsha, hip, spawnCount_append, storeCount_append, spawnCount,
        storeCount]

/-- The whole restore pass spawns no terminal executor and stores nothing. -/
theorem restoreCacheFold_counts (cachePath currentCache : String) (now : Nat)
    (oracle : LocalCacheOracle) (artifacts : List Artifact) (st : CacheSt) :
    spawnCount ((restoreCacheFold cachePath currentCache now oracle artifacts st).1.trace) =
        spawnCount st.trace ∧
    storeCount ((restoreCacheFold cachePath currentCache now oracle artifacts st).1.trace) =
        storeCount st.trace := by
  unfold restoreCacheFold
  suffices h : ∀ init : CacheSt × List Artifact,
      spawnCount ((artifacts.foldl (fun acc a =>
        let (st', r) := restoreArtifact cachePath currentCache now oracle acc.1 a
        (st', acc.2 ++ r.toList)) init).1.trace) = spawnCount init.1.trace ∧
      storeCount ((artifacts.foldl (fun acc a =>
        let (st', r) := restoreArtifact cachePath currentCache now oracle acc.1 a
        (st', acc.2 ++ r.toList)) init).1.trace) = storeCount init.1.trace by
    exact h (st, [])
  intro init
  induction artifacts generalizing init with
  | nil => exact ⟨rfl, rfl⟩
  | cons a rest ih =>
    rw [List.foldl_cons]
    rcases hra : restoreArtifact cachePath currentCache now oracle init.1 a with ⟨st1, r⟩
    have h1 := restoreArtifact_counts cachePath currentCache now oracle init.1 a
    rw [hra] at h1
    have h2 := ih (st1, init.2 ++ r.toList)
    exact ⟨h2.1.trans (by simpa using h1.1), h2.2.trans (by simpa using h1.2)⟩

/-- **C2.** With the local cache middleware enabled for reading, when every
artifact of a Command with a non-empty artifact list hits in the cache (the
restore pass leaves nothing to generate — each artifact was restored or
skipped as already correct), the middleware calls `abort()`, and running the
chain never invokes the terminal executor: no spawn is added to the trace. -/
theorem localCache_all_hits_aborts (ctx : MiddlewareCtx) (options : LocalCacheOptions)
    (st : CacheSt)
    (hdis : envTruthy ctx.env "SHADOWDOG_DISABLE_LOCAL_CACHE" = false)
    (hread : envBoolFlag ctx.env "SHADOWDOG_LOCAL_CACHE_READ" options.read = true)
    (hne : ctx.config.artifacts ≠ [])
    (hhit : (restoreCacheFold (middlewareCachePath ctx options) (middlewareCacheKey ctx)
      ctx.now ctx.oracle ctx.config.artifacts st).2 = []) :
    ((localCacheMiddleware ctx options).phase1 st).2 = StepDecision.abort ∧
    spawnCount ((runChain [localCacheMiddleware ctx options,
      terminalExecutor ctx.config] st).trace) = spawnCount st.trace := by
  have hres : restoreCache (middlewareCachePath ctx options) (middlewareCacheKey ctx)
      ctx.now ctx.oracle ctx.config.artifacts st =
      ((restoreCacheFold (middlewareCachePath ctx options) (middlewareCacheKey ctx)
        ctx.now ctx.oracle ctx.config.artifacts st).1, true) := by
    unfold restoreCache
    rcases hfold : restoreCacheFold (middlewareCachePath ctx options)
      (middlewareCacheKey ctx) ctx.now ctx.oracle ctx.config.artifacts st with ⟨st', missed⟩
    have hm : missed = [] := by
      have := congrArg Prod.snd hfold
      simpa [hfold] using hhit
    subst hm
    simp [List.isEmpty_eq_true, hne]
  have hphase1 : (localCacheMiddleware ctx options).phase1 st =
      ((restoreCacheFold (middlewareCachePath ctx options) (middlewareCacheKey ctx)
        ctx.now ctx.oracle ctx.config.artifacts st).1, StepDecision.abort) := by
    simp [localCacheMiddleware, hdis, hread, hres]
  refine ⟨by rw [hphase1], ?_⟩
  simp only [runChain]
  rw [hphase1]
  exact (restoreCacheFold_counts _ _ _ _ _ _).1

/-- **C9.** A Command whose artifact list is empty never makes the local
cache middleware abort — `restoreCache` requires a non-empty artifact list to
report a full restore — so the terminal executor always runs (exactly one
spawn is added) and the write path stores nothing. -/
theorem localCache_empty_artifacts_runs_terminal (ctx : MiddlewareCtx)
    (options : LocalCacheOptions) (st : CacheSt)
    (hempty : ctx.config.artifacts = []) :
    ((localCacheMiddleware ctx options).phase1 st).2 ≠ StepDecision.abort ∧
    spawnCount ((runChain [localCacheMiddleware ctx options,
      terminalExecutor ctx.config] st).trace) = spawnCount st.trace + 1 ∧
    storeCount ((runChain [localCacheMiddleware ctx options,
      terminalExecutor ctx.config] st).trace) = storeCount st.trace := by
  cases hd : envTruthy ctx.env "SHADOWDOG_DISABLE_LOCAL_CACHE" with
  | true =>
    have hphase1 : (localCacheMiddleware ctx options).phase1 st = (st, StepDecision.next) := by
      simp [localCacheMiddleware, hd]
    refine ⟨by rw [hphase1]; simp, ?_⟩
    simp only [runChain]
    rw [hphase1]
    simp [localCacheMiddleware, hd, terminalExecutor, spawnCount_append, storeCount_append,
      spawnCount, storeCount]
  | false =>
    have hphase1 : (localCacheMiddleware ctx options).phase1 st = (st, StepDecision.next) := by
      cases hr : envBoolFlag ctx.env "SHADOWDOG_LOCAL_CACHE_READ" options.read with
      | true =>
        simp [localCacheMiddleware, hd, hr, restoreCache, restoreCacheFold, hempty]
      | false =>
        simp [localCacheMiddleware, hd, hr]
    refine ⟨by rw [hphase1]; simp, ?_⟩
    simp only [runChain]
    rw [hphase1]
    cases hw : envBoolFlag ctx.env "SHADOWDOG_LOCAL_CACHE_WRITE" options.write with
    | true =>
      simp [localCacheMiddleware, hd, hw, hempty, terminalExecutor, spawnCount_append,
        storeCount_append, spawnCount, storeCount]
    | false =>
      simp [localCacheMiddleware, hd, hw, terminalExecutor, spawnCount_append,
        storeCount_append, spawnCount, storeCount]

/-- Witness for C2 at a concrete state: the cache holds the demo artifact's
archive, the restore pass reuses it, the middleware aborts, and no terminal
executor spawn is recorded. -/
theorem localCache_all_hits_aborts_witness :
    envTruthy demoCtx.env "SHADOWDOG_DISABLE_LOCAL_CACHE" = false ∧
    envBoolFlag demoCtx.env "SHADOWDOG_LOCAL_CACHE_READ" demoOptions.read = true ∧
    demoCtx.config.artifacts ≠ [] ∧
    ((localCacheMiddleware demoCtx demoOptions).phase1 demoHitSt).2 = StepDecision.abort ∧
    spawnCount ((runChain [localCacheMiddleware demoCtx demoOptions,
      terminalExecutor demoCtx.config] demoHitSt).trace) = spawnCount demoHitSt.trace := by
  have hhit : (restoreCacheFold (middlewareCachePath demoCtx demoOptions)
      (middlewareCacheKey demoCtx) demoCtx.now demoCtx.oracle demoCtx.config.artifacts
      demoHitSt).2 = [] := by
    simp [restoreCacheFold, restoreArtifact, inPlaceRestore, demoCtx, demoConfig,
      demoArtifact, demoHitSt, mapGet, List.find?, filterKeep]
  have h := localCache_all_hits_aborts demoCtx demoOptions demoHitSt (by decide) (by decide)
    (by decide) hhit
  exact ⟨by decide, by decide, by decide, h.1, h.2⟩

/-- Witness for C9 at a concrete state: with no artifacts the middleware does
not abort, the terminal executor spawns exactly once, nothing is stored. -/
theorem localCache_empty_artifacts_runs_terminal_witness :
    demoCtxNoArtifacts.config.artifacts = [] ∧
    ((localCacheMiddleware demoCtxNoArtifacts demoOptions).phase1 demoHitSt).2 ≠
      StepDecision.abort ∧
    spawnCount ((runChain [localCacheMiddleware demoCtxNoArtifacts demoOptions,
      terminalExecutor demoCtxNoArtifacts.config] demoHitSt).trace) =
      spawnCount demoHitSt.trace + 1 ∧
    storeCount ((runChain [localCacheMiddleware demoCtxNoArtifacts demoOptions,
      terminalExecutor demoCtxNoArtifacts.config] demoHitSt).trace) =
      storeCount demoHitSt.trace :=
  have h := localCache_empty_artifacts_runs_terminal demoCtxNoArtifacts demoOptions
    demoHitSt rfl
  ⟨rfl, h.1, h.2.1, h.2.2⟩

/-- **C4.** On a local-cache read hit with an artifact already on disk, the
middleware extracts the archive to the temporary location and compares content
digests of the extracted copy and the existing artifact: equal digests skip
the restore entirely — the result is counted as reused (`none`) with only the
temp extraction and removal in the trace, the disk untouched by any in-place
unpack; differing digests unpack into place; and on every such exit path the
temporary location is extracted and then removed. -/
theorem localCache_sha_skip_restore (cachePath currentCache : String) (now : Nat)
    (oracle : LocalCacheOracle) (st : CacheSt) (a : Artifact) (archive : Archive)
    (existing : String)
    (hcache : mapGet st.cache (cacheFilePathOf cachePath currentCache a.output) = some archive)
    (hdisk : mapGet st.disk a.output = some existing) :
    (oracle.tempExtractOk = true →
      filterKeep a.ignore a.output (basename a.output) = true →
      ∀ extractedContent, mapGet archive (basename a.output) = some extractedContent →
      (shortSha256 extractedContent = shortSha256 existing →
        restoreArtifact cachePath currentCache now oracle st a =
          ({ st with trace := st.trace ++
              [CacheEffect.tempExtract (tempOutputPathOf cachePath currentCache a.output now),
               CacheEffect.tempRemove (tempOutputPathOf cachePath currentCache a.output now)] },
            none)) ∧
      (shortSha256 extractedContent ≠ shortSha256 existing →
        oracle.inPlaceExtractOk = true →
        restoreArtifact cachePath currentCache now oracle st a =
          ({ disk := mapSet st.disk a.output extractedContent, cache := st.cache,
             trace := st.trace ++
              [CacheEffect.tempExtract (tempOutputPathOf cachePath currentCache a.output now),
               CacheEffect.tempRemove (tempOutputPathOf cachePath currentCache a.output now),
               CacheEffect.unpackInPlace a.output] },
            none))) ∧
    (∃ Δ, (restoreArtifact cachePath currentCache now oracle st a).1.trace = st.trace ++ Δ ∧
      CacheEffect.tempExtract (tempOutputPathOf cachePath currentCache a.output now) ∈ Δ ∧
      CacheEffect.tempRemove (tempOutputPathOf cachePath currentCache a.output now) ∈ Δ) := by
  constructor
  · intro hte hk extractedContent he
    constructor
    · intro hsha
      have hbeq : (shortSha256 extractedContent == shortSha256 existing) = true := by
        simp [hsha]
      simp [restoreArtifact, hcache, hdisk, hte, hk, he, computeArtifactContentSha,
        shaMatch, hbeq]
    · intro hsha hip
      have hbeq : (shortSha256 extractedContent == shortSha256 existing) = false :=
        beq_false_of_ne hsha
      simp [restoreArtifact, inPlaceRestore, hcache, hdisk, hte, hk, he,
        computeArtifactContentSha, shaMatch, hbeq, hip]
  · unfold restoreArtifact inPlaceRestore
    simp only [hcache, hdisk]
    cases hte : oracle.tempExtractOk with
    | false =>
      cases hip : oracle.inPlaceExtractOk <;>
        exact ⟨[CacheEffect.tempExtract (tempOutputPathOf cachePath currentCache a.output now),
                CacheEffect.tempRemove (tempOutputPathOf cachePath currentCache a.output now),
                CacheEffect.unpackInPlace a.output],
          by simp [hte, hip], by simp, by simp⟩
    | true =>
      cases hk : filterKeep a.ignore a.output (basename a.output) with
      | false =>
        cases hip : oracle.inPlaceExtractOk <;>
          exact ⟨[CacheEffect.tempExtract (tempOutputPathOf cachePath currentCache a.output now),
                CacheEffect.tempRemove (tempOutputPathOf cachePath currentCache a.output now),
                CacheEffect.unpackInPlace a.output],
            by simp [hte, hk, hip], by simp, by simp⟩
      | true =>
        cases he : mapGet archive (basename a.output) with
        | none =>
          cases hip : oracle.inPlaceExtractOk <;>
            exact ⟨[CacheEffect.tempExtract (tempOutputPathOf cachePath currentCache a.output now),
                CacheEffect.tempRemove (tempOutputPathOf cachePath currentCache a.output now),
                CacheEffect.unpackInPlace a.output],
              by simp [hte, hk, he, hip], by simp, by simp⟩
        | some extractedContent =>
          cases hsha : shaMatch (some (shortSha256 extractedContent))
              (computeArtifactContentSha st.disk a.output) with
          | true =>
            exact ⟨[CacheEffect.tempExtract (tempOutputPathOf cachePath currentCache a.output now),
                CacheEffect.tempRemove (tempOutputPathOf cachePath currentCache a.output now)],
              by simp [hte, hk, he, hsha], by simp, by simp⟩
          | false =>
            cases hip : oracle.inPlaceExtractOk <;>
              exact ⟨[CacheEffect.tempExtract (tempOutputPathOf cachePath currentCache a.output now),
                CacheEffect.tempRemove (tempOutputPathOf cachePath currentCache a.output now),
                CacheEffect.unpackInPlace a.output],
                by simp [hte, hk, he, hsha, hip], by simp, by simp⟩

/-- Witness for C4 at a concrete state: the on-disk artifact's bytes equal the
cached bytes, so the restore is skipped, the result counts as reused, and the
temp directory is created and removed. -/
theorem localCache_sha_skip_restore_witness :
    mapGet demoShaSt.cache (cacheFilePathOf "tmp/cache" "k0" "dist/app.txt") =
      some [("app.txt", "hello")] ∧
    mapGet demoShaSt.disk "dist/app.txt" = some "hello" ∧
    restoreArtifact "tmp/cache" "k0" 7 {} demoShaSt demoArtifact =
      ({ demoShaSt with trace := demoShaSt.trace ++
          [CacheEffect.tempExtract (tempOutputPathOf "tmp/cache" "k0" "dist/app.txt" 7),
           CacheEffect.tempRemove (tempOutputPathOf "tmp/cache" "k0" "dist/app.txt" 7)] },
        none) := by
  have hcache : mapGet demoShaSt.cache (cacheFilePathOf "tmp/cache" "k0" "dist/app.txt") =
      some [("app.txt", "hello")] := by
    simp [demoShaSt, mapGet, List.find?]
  have hdisk : mapGet demoShaSt.disk "dist/app.txt" = some "hello" := by
    simp [demoShaSt, mapGet, List.find?]
  have hb : basename "dist/app.txt" = "app.txt" := by decide
  have h := (localCache_sha_skip_restore "tmp/cache" "k0" 7 {} demoShaSt demoArtifact
    [("app.txt", "hello")] "hello" (by simpa [demoArtifact] using hcache)
    (by simpa [demoArtifact] using hdisk)).1 rfl
    (by simp [demoArtifact, filterKeep]) "hello" (by simp [demoArtifact, hb, mapGet, List.find?])
  exact ⟨hcache, hdisk, by simpa [demoArtifact] using h.1 rfl⟩

/-- **C7, counterexample.** On the two-command cycle the thrown error is the
fixed string `'Circular dependency detected'`: it does not identify (contain)
either offending artifact output, contradicting the claim that the error
names the offending outputs. -/
theorem cycle_error_does_not_name_outputs :
    generateWithDependenciesPlugin [cycleTaskA, cycleTaskB] =
      some (.error "Circular dependency detected") ∧
    containsSubstrB "Circular dependency detected" "a.out" = false ∧
    containsSubstrB "Circular dependency detected" "b.out" = false := by
  refine ⟨?_, by decide, by decide⟩
  simp [generateWithDependenciesPlugin, cycleTaskA, cycleTaskB, mkCommandTask,
    dependenciesCommand, organizeTasksInLayers, layerIndices, topologicalSort,
    topoSortAux, visit, visitDeps, buildOutputIndex, depsOf, insertUnique,
    mapGet, mapSet, List.find?, isCommandTask, depObjOf, taskFiles, taskOutputs,
    List.enum, List.enumFrom]

/-- **C7, amended.** When two Commands each declare the other's single
artifact output among their input files, the dependency-layering plugin
detects the cycle during its depth-first sort and `generate` fails with the
fixed error `'Circular dependency detected'` (which does not name the
offending outputs) before `processTask` walks anything — so no command is
executed. -/
theorem cycle_detected_stops_generate
    (c₁ c₂ wd₁ wd₂ : String) (tags₁ tags₂ : List String)
    (ig₁ ig₂ : Option (List String)) (env₁ env₂ : List String)
    (o₁ o₂ : String) (h : o₁ ≠ o₂) :
    generateWithDependenciesPlugin
      [Task.command ⟨c₁, wd₁, tags₁, [⟨o₁, ig₁⟩]⟩ [o₂] env₁,
       Task.command ⟨c₂, wd₂, tags₂, [⟨o₂, ig₂⟩]⟩ [o₁] env₂] =
      some (.error "Circular dependency detected") := by
  have h12 : (o₁ == o₂) = false := beq_false_of_ne h
  have h21 : (o₂ == o₁) = false := beq_false_of_ne (Ne.symm h)
  simp [generateWithDependenciesPlugin, dependenciesCommand, organizeTasksInLayers,
    layerIndices, topologicalSort, topoSortAux, visit, visitDeps, buildOutputIndex,
    depsOf, insertUnique, mapGet, mapSet, List.find?, isCommandTask, depObjOf,
    taskFiles, taskOutputs, List.enum, List.enumFrom, h12, h21]

/-- Witness for the amended C7 theorem at the concrete cycle of the
specification's scenario. -/
theorem cycle_detected_stops_generate_witness :
    ("a.out" : String) ≠ "b.out" ∧
    generateWithDependenciesPlugin
      [Task.command ⟨"build-a", "", [], [⟨"a.out", none⟩]⟩ ["b.out"] [],
       Task.command ⟨"build-b", "", [], [⟨"b.out", none⟩]⟩ ["a.out"] []] =
      some (.error "Circular dependency detected") :=
  ⟨by decide, cycle_detected_stops_generate "build-a" "build-b" "" "" [] []
    none none [] [] "a.out" "b.out" (by decide)⟩

/-! ## Association-map lemmas for the layering proof -/

/-- `mapGet` on a cons cell. -/
theorem mapGet_cons {κ α : Type} [BEq κ] (a : κ) (b : α) (m : List (κ × α)) (k : κ) :
    mapGet ((a, b) :: m) k = if a == k then some b else mapGet m k := by
  cases h : a == k <;> simp [mapGet, List.find?, h]

/-- A present key still resolves, unchanged, after appending entries. -/
theorem mapGet_append_left {κ α : Type} [BEq κ] (m r : List (κ × α)) (k : κ)
    (h : (mapGet m k).isSome) : mapGet (m ++ r) k = mapGet m k := by
  induction m with
  | nil => simp [mapGet] at h
  | cons hd tl ih =>
    obtain ⟨a, b⟩ := hd
    by_cases hk : (a == k) = true
    · rw [List.cons_append, mapGet_cons, mapGet_cons, if_pos hk, if_pos hk]
    · rw [List.cons_append, mapGet_cons, mapGet_cons, if_neg hk, if_neg hk]
      rw [mapGet_cons, if_neg hk] at h
      exact ih h

/-- A key resolves exactly when it occurs among the entry keys. -/
theorem mapGet_isSome_iff {κ α : Type} [BEq κ] [LawfulBEq κ] (m : List (κ × α)) (k : κ) :
    (mapGet m k).isSome ↔ k ∈ m.map Prod.fst := by
  induction m with
  | nil => simp [mapGet]
  | cons hd tl ih =>
    obtain ⟨a, b⟩ := hd
    rw [mapGet_cons]
    by_cases hk : (a == k) = true
    · rw [if_pos hk]
      simp [eq_of_beq hk]
    · rw [if_neg hk]
      have hne : a ≠ k := by simpa using hk
      simp [hne, Ne.symm hne, ih]

/-- An absent key falls through an append to the right part. -/
theorem mapGet_append_right {κ α : Type} [BEq κ] [LawfulBEq κ] (m r : List (κ × α))
    (k : κ) (h : k ∉ m.map Prod.fst) : mapGet (m ++ r) k = mapGet r k := by
  induction m with
  | nil => simp
  | cons hd tl ih =>
    obtain ⟨a, b⟩ := hd
    simp only [List.map_cons, List.mem_cons, not_or] at h
    rw [List.cons_append, mapGet_cons, if_neg (by simp [Ne.symm h.1])]
    exact ih h.2

/-- A resolved binding is a list member. -/
theorem mapGet_some_mem {κ α : Type} [BEq κ] [LawfulBEq κ] (m : List (κ × α))
    (k : κ) (v : α) (h : mapGet m k = some v) : (k, v) ∈ m := by
  induction m with
  | nil => simp [mapGet] at h
  | cons hd tl ih =>
    obtain ⟨a, b⟩ := hd
    rw [mapGet_cons] at h
    by_cases hk : (a == k) = true
    · rw [if_pos hk] at h
      injection h with hbv
      subst hbv
      rw [← eq_of_beq hk]
      exact List.mem_cons_self _ _
    · rw [if_neg hk] at h
      exact List.mem_cons_of_mem _ (ih h)

/-- With duplicate-free keys, membership determines the lookup. -/
theorem mapGet_eq_of_mem_nodup {κ α : Type} [BEq κ] [LawfulBEq κ] (m : List (κ × α))
    (k : κ) (v : α) (hn : (m.map Prod.fst).Nodup) (h : (k, v) ∈ m) :
    mapGet m k = some v := by
  induction m with
  | nil => simp at h
  | cons hd tl ih =>
    obtain ⟨a, b⟩ := hd
    simp only [List.map_cons, List.nodup_cons] at hn
    rw [mapGet_cons]
    rcases List.mem_cons.mp h with h | h
    · injection h with h1 h2
      subst h1
      subst h2
      rw [if_pos (by simp)]
    · have hk : a ≠ k := by
        rintro rfl
        exact hn.1 (List.mem_map.mpr ⟨(a, v), h, rfl⟩)
      rw [if_neg (by simp [hk])]
      exact ih hn.2 h

/-- With duplicate-free keys, two bindings of the same key agree. -/
theorem mem_nodup_val_unique {κ α : Type} [BEq κ] [LawfulBEq κ] (m : List (κ × α))
    (k : κ) (a b : α) (hn : (m.map Prod.fst).Nodup)
    (h1 : (k, a) ∈ m) (h2 : (k, b) ∈ m) : a = b := by
  have e1 := mapGet_eq_of_mem_nodup m k a hn h1
  have e2 := mapGet_eq_of_mem_nodup m k b hn h2
  rw [e1] at e2
  exact Option.some.inj e2

/-- `mapGet` resolves exactly when the underlying `find?` does. -/
theorem mapGet_isSome_eq_find {κ α : Type} [BEq κ] (m : List (κ × α)) (k : κ) :
    (mapGet m k).isSome = (m.find? (fun p => p.1 == k)).isSome := by
  rw [mapGet]
  cases m.find? (fun p => p.1 == k) <;> rfl

/-- Overwriting a present key in place resolves to the new value. -/
theorem mapGet_map_update_self {κ α : Type} [BEq κ] [LawfulBEq κ] (m : List (κ × α))
    (k : κ) (v : α) (h : (mapGet m k).isSome) :
    mapGet (m.map (fun p => if p.1 == k then (k, v) else p)) k = some v := by
  induction m with
  | nil => simp [mapGet] at h
  | cons hd tl ih =>
    obtain ⟨a, b⟩ := hd
    by_cases hk : (a == k) = true
    · simp only [List.map_cons, if_pos hk]
      rw [mapGet_cons, if_pos (by simp)]
    · simp only [List.map_cons, if_neg hk]
      rw [mapGet_cons, if_neg hk]
      rw [mapGet_cons, if_neg hk] at h
      exact ih h

/-- Overwriting one key in place leaves other lookups unchanged. -/
theorem mapGet_map_update_ne {κ α : Type} [BEq κ] [LawfulBEq κ] (m : List (κ × α))
    (k k' : κ) (v : α) (h : k' ≠ k) :
    mapGet (m.map (fun p => if p.1 == k then (k, v) else p)) k' = mapGet m k' := by
  induction m with
  | nil => rfl
  | cons hd tl ih =>
    obtain ⟨a, b⟩ := hd
    by_cases hk : (a == k) = true
    · have hak : a = k := eq_of_beq hk
      simp only [List.map_cons, if_pos hk]
      rw [mapGet_cons, mapGet_cons, if_neg (by simp [Ne.symm h]),
        if_neg (by simp [hak, Ne.symm h]), ih]
    · simp only [List.map_cons, if_neg hk]
      rw [mapGet_cons, mapGet_cons, ih]

/-- `Map.set` then `Map.get` of the same key gives the stored value. -/
theorem mapGet_mapSet_self {κ α : Type} [BEq κ] [LawfulBEq κ] (m : List (κ × α))
    (k : κ) (v : α) : mapGet (mapSet m k v) k = some v := by
  by_cases h : (m.find? (fun p => p.1 == k)).isSome
  · rw [mapSet, if_pos h]
    exact mapGet_map_update_self m k v (by rw [mapGet_isSome_eq_find]; exact h)
  · have hnone : ¬(mapGet m k).isSome := by
      rw [mapGet_isSome_eq_find]
      exact fun hc => h hc
    have hnk : k ∉ m.map Prod.fst := fun hm => hnone ((mapGet_isSome_iff m k).mpr hm)
    rw [mapSet, if_neg h, mapGet_append_right m _ k hnk, mapGet_cons, if_pos (by simp)]

/-- `Map.set` of one key leaves other lookups unchanged. -/
theorem mapGet_mapSet_ne {κ α : Type} [BEq κ] [LawfulBEq κ] (m : List (κ × α))
    (k k' : κ) (v : α) (h : k' ≠ k) : mapGet (mapSet m k v) k' = mapGet m k' := by
  by_cases hf : (m.find? (fun p => p.1 == k)).isSome
  · rw [mapSet, if_pos hf]
    exact mapGet_map_update_ne m k k' v h
  · rw [mapSet, if_neg hf]
    cases h2 : mapGet m k' with
    | some w =>
      rw [mapGet_append_left m _ k' (by rw [h2]; rfl), h2]
    | none =>
      have hnk : k' ∉ m.map Prod.fst := fun hm => by
        have := (mapGet_isSome_iff m k').mpr hm
        rw [h2] at this
        exact Bool.false_ne_true this
      rw [mapGet_append_right m _ k' hnk, mapGet_cons, if_neg (by simp [Ne.symm h])]
      rfl

/-- Every entry of `Map.set m k v` is an old entry or the new binding. -/
theorem mem_mapSet {κ α : Type} [BEq κ] (m : List (κ × α)) (k : κ) (v : α)
    (g : κ × α) (h : g ∈ mapSet m k v) : g ∈ m ∨ g = (k, v) := by
  rw [mapSet] at h
  by_cases hf : (m.find? (fun p => p.1 == k)).isSome
  · rw [if_pos hf] at h
    rcases List.mem_map.mp h with ⟨p, hp, he⟩
    by_cases hpk : (p.1 == k) = true
    · rw [if_pos hpk] at he
      exact Or.inr he.symm
    · rw [if_neg hpk] at he
      exact Or.inl (he ▸ hp)
  · rw [if_neg hf] at h
    rcases List.mem_append.mp h with h | h
    · exact Or.inl h
    · exact Or.inr (List.mem_singleton.mp h)

/-- Overwriting a present key preserves the key list. -/
theorem keys_mapSet_of_isSome {κ α : Type} [BEq κ] [LawfulBEq κ] (m : List (κ × α))
    (k : κ) (v : α) (h : (m.find? (fun p => p.1 == k)).isSome) :
    (mapSet m k v).map Prod.fst = m.map Prod.fst := by
  rw [mapSet, if_pos h, List.map_map]
  refine List.map_congr_left (fun p _ => ?_)
  by_cases hpk : (p.1 == k) = true
  · simp only [Function.comp_apply, if_pos hpk]
    exact (eq_of_beq hpk).symm
  · simp only [Function.comp_apply, if_neg hpk]

/-! ## The depth-first-search invariant of `topologicalSort` -/

/-- `VisitOut` is reflexive on invariant states. -/
theorem visitOut_refl (deps : Nat → List Nat) (st : VisitSt) (h : GoodSt deps st) :
    VisitOut deps st st :=
  ⟨h, Finset.Subset.refl _, rfl, fun _ _ => rfl, fun _ _ h' => h'⟩

/-- `VisitOut` composes. -/
theorem visitOut_trans (deps : Nat → List Nat) (st₁ st₂ st₃ : VisitSt)
    (h12 : VisitOut deps st₁ st₂) (h23 : VisitOut deps st₂ st₃) :
    VisitOut deps st₁ st₃ := by
  obtain ⟨g2, sub12, t12, lv12, u12⟩ := h12
  obtain ⟨g3, sub23, t23, lv23, u23⟩ := h23
  refine ⟨g3, Finset.Subset.trans sub12 sub23, t23.trans t12, ?_, ?_⟩
  · intro k hk
    rw [lv23 k (by rw [lv12 k hk]; exact hk), lv12 k hk]
  · intro x hx hx3
    exact u12 x hx (u23 x (by rw [t12]; exact hx) hx3)

/-- The joint induction: an `ok` return of `visit` or `visitDeps` keeps the
search invariant, restores `temp`, never newly visits a `temp` member, and
records levels so that every dependency sits strictly below its dependent. -/
theorem visitSpec : ∀ fuel, VisitP fuel ∧ VisitDepsP fuel := by
  intro fuel
  induction fuel with
  | zero =>
    constructor
    · intro deps st node level st' l hgood heq
      simp [visit] at heq
    · intro deps st ds childLevel acc st' m hgood heq
      cases ds with
      | nil =>
        simp only [visitDeps, Option.some.injEq, Except.ok.injEq, Prod.mk.injEq] at heq
        obtain ⟨rfl, rfl⟩ := heq
        exact ⟨visitOut_refl deps st hgood, Nat.le_refl _, by simp⟩
      | cons d ds =>
        simp [visitDeps, visit] at heq
  | succ n ih =>
    have hvisit : VisitP (n + 1) := by
      intro deps st node level st' l hgood heq
      by_cases htemp : node ∈ st.temp
      · simp [visit, htemp] at heq
      · by_cases hvis : node ∈ st.visited
        · simp only [visit] at heq
          rw [if_neg htemp, if_pos hvis] at heq
          simp only [Option.some.injEq, Except.ok.injEq, Prod.mk.injEq] at heq
          obtain ⟨rfl, rfl⟩ := heq
          obtain ⟨v, hv⟩ := Option.isSome_iff_exists.mp (hgood.1 node hvis)
          exact ⟨visitOut_refl deps st hgood, hvis, by simp [hv]⟩
        · simp only [visit] at heq
          rw [if_neg htemp, if_neg hvis] at heq
          cases hvd : visitDeps deps n { st with temp := insert node st.temp }
              (deps node) (level + 1) level with
          | none => rw [hvd] at heq; simp at heq
          | some r =>
            cases r with
            | error e => rw [hvd] at heq; simp at heq
            | ok pr =>
              obtain ⟨st₂, m⟩ := pr
              rw [hvd] at heq
              simp only [Option.some.injEq, Except.ok.injEq, Prod.mk.injEq] at heq
              obtain ⟨hst, rfl⟩ := heq
              subst hst
              have hgood₁ : GoodSt deps { st with temp := insert node st.temp } := hgood
              obtain ⟨⟨g2, sub12, t12, lv12, u12⟩, hacc, hds⟩ :=
                ih.2 deps { st with temp := insert node st.temp } (deps node)
                  (level + 1) level st₂ m hgood₁ hvd
              have t12' : st₂.temp = insert node st.temp := t12
              have lv12' : ∀ k, (mapGet st.levels k).isSome →
                  mapGet st₂.levels k = mapGet st.levels k := lv12
              have sub12' : st.visited ⊆ st₂.visited := sub12
              have hnode₂ : node ∉ st₂.visited := fun hmem =>
                hvis (u12 node (Finset.mem_insert_self _ _) hmem)
              have hnodekeys : node ∉ st₂.levels.map Prod.fst := fun hk => by
                rcases List.mem_map.mp hk with ⟨p, hp, hfst⟩
                exact hnode₂ (hfst ▸ g2.2.1 p hp)
              have hlv_node : mapGet (st₂.levels ++ [(node, m)]) node = some m := by
                rw [mapGet_append_right _ _ _ hnodekeys, mapGet_cons, if_pos (by simp)]
              have hlv_keep : ∀ k, (mapGet st₂.levels k).isSome →
                  mapGet (st₂.levels ++ [(node, m)]) k = mapGet st₂.levels k :=
                fun k hk => mapGet_append_left _ _ k hk
              refine ⟨⟨⟨?_, ?_, ?_, ?_⟩, ?_, ?_, ?_, ?_⟩, ?_, ?_⟩
              · intro i hi
                rcases Finset.mem_insert.mp hi with rfl | hi
                · rw [hlv_node]
                  rfl
                · rw [hlv_keep i (g2.1 i hi)]
                  exact g2.1 i hi
              · intro p hp
                rcases List.mem_append.mp hp with hp | hp
                · exact Finset.mem_insert_of_mem (g2.2.1 p hp)
                · rw [List.mem_singleton.mp hp]
                  exact Finset.mem_insert_self _ _
              · rw [List.map_append]
                refine List.Nodup.append g2.2.2.1 (List.nodup_singleton node) ?_
                intro x hx hx'
                rw [List.mem_singleton.mp hx'] at hx
                exact hnodekeys hx
              · intro i hi d hd
                rcases Finset.mem_insert.mp hi with rfl | hi
                · obtain ⟨ld, hld, hle⟩ := hds d hd
                  exact ⟨ld, m, by rw [hlv_keep d (by rw [hld]; rfl), hld], hlv_node, hle⟩
                · obtain ⟨ld, li, h1, h2, h3⟩ := g2.2.2.2 i hi d hd
                  exact ⟨ld, li, by rw [hlv_keep d (by rw [h1]; rfl), h1],
                    by rw [hlv_keep i (by rw [h2]; rfl), h2], h3⟩
              · intro x hx
                exact Finset.mem_insert_of_mem (sub12' hx)
              · show st₂.temp.erase node = st.temp
                rw [t12']
                exact Finset.erase_insert htemp
              · intro k hk
                rw [hlv_keep k (by rw [lv12' k hk]; exact hk), lv12' k hk]
              · intro x hx hx'
                have hxne : x ≠ node := fun e => htemp (e ▸ hx)
                rcases Finset.mem_insert.mp hx' with e | hmem
                · exact absurd e hxne
                · exact u12 x (Finset.mem_insert_of_mem hx) hmem
              · exact Finset.mem_insert_self _ _
              · exact hlv_node
    have hdeps : VisitDepsP (n + 1) := by
      intro deps st ds childLevel acc st' m hgood heq
      revert st acc st' m
      induction ds with
      | nil =>
        intro st acc st' m hgood heq
        simp only [visitDeps, Option.some.injEq, Except.ok.injEq, Prod.mk.injEq] at heq
        obtain ⟨rfl, rfl⟩ := heq
        exact ⟨visitOut_refl deps st hgood, Nat.le_refl _, by simp⟩
      | cons d ds ihds =>
        intro st acc st' m hgood heq
        simp only [visitDeps] at heq
        cases hv : visit deps (n + 1) st d childLevel with
        | none => rw [hv] at heq; simp at heq
        | some r =>
          cases r with
          | error e => rw [hv] at heq; simp at heq
          | ok pr =>
            obtain ⟨st₁, l⟩ := pr
            rw [hv] at heq
            obtain ⟨out1, hdvis, hdlv⟩ := hvisit deps st d childLevel st₁ l hgood hv
            obtain ⟨out2, hacc2, hrest⟩ := ihds st₁ (max acc (l + 1)) st' m out1.1 heq
            refine ⟨visitOut_trans deps st st₁ st' out1 out2, ?_, ?_⟩
            · exact Nat.le_trans (Nat.le_max_left acc (l + 1)) hacc2
            · intro d' hd'
              rcases List.mem_cons.mp hd' with rfl | hd'
              · refine ⟨l, ?_, Nat.le_trans (Nat.le_max_right acc (l + 1)) hacc2⟩
                rw [out2.2.2.2.1 d' (by rw [hdlv]; rfl), hdlv]
              · exact hrest d' hd'
    exact ⟨hvisit, hdeps⟩

/-- `topoSortAux` preserves the invariant, visits its whole worklist and keeps
recorded levels stable. -/
theorem topoSortAux_ok_spec (deps : Nat → List Nat) (n : Nat) :
    ∀ (is : List Nat) (st st'' : VisitSt), GoodSt deps st →
    topoSortAux deps n is st = some (.ok st'') →
    GoodSt deps st'' ∧ st.visited ⊆ st''.visited ∧
    (∀ k, (mapGet st.levels k).isSome → mapGet st''.levels k = mapGet st.levels k) ∧
    ∀ i ∈ is, i ∈ st''.visited := by
  intro is
  induction is with
  | nil =>
    intro st st'' hgood heq
    simp only [topoSortAux, Option.some.injEq, Except.ok.injEq] at heq
    subst heq
    exact ⟨hgood, Finset.Subset.refl _, fun _ _ => rfl, by simp⟩
  | cons i is ih =>
    intro st st'' hgood heq
    simp only [topoSortAux] at heq
    by_cases hvis : i ∈ st.visited
    · rw [if_pos hvis] at heq
      obtain ⟨g, sub, keep, hall⟩ := ih st st'' hgood heq
      refine ⟨g, sub, keep, fun j hj => ?_⟩
      rcases List.mem_cons.mp hj with rfl | hj
      exacts [sub hvis, hall j hj]
    · rw [if_neg hvis] at heq
      cases hv : visit deps (n + 1) st i 0 with
      | none => rw [hv] at heq; simp at heq
      | some r =>
        cases r with
        | error e => rw [hv] at heq; simp at heq
        | ok pr =>
          obtain ⟨st₁, l⟩ := pr
          rw [hv] at heq
          obtain ⟨out1, hivis, _⟩ := (visitSpec (n + 1)).1 deps st i 0 st₁ l hgood hv
          obtain ⟨g, sub, keep, hall⟩ := ih st₁ st'' out1.1 heq
          refine ⟨g, Finset.Subset.trans out1.2.1 sub, ?_, ?_⟩
          · intro k hk
            rw [keep k (by rw [out1.2.2.2.1 k hk]; exact hk), out1.2.2.2.1 k hk]
          · intro j hj
            rcases List.mem_cons.mp hj with rfl | hj
            exacts [sub hivis, hall j hj]

/-- An `ok` result of `topologicalSort` records every node of the range with
duplicate-free keys, and every dependency edge strictly descends in level. -/
theorem topologicalSort_ok_spec (deps : Nat → List Nat) (n : Nat)
    (levels : List (Nat × Nat)) (h : topologicalSort deps n = some (.ok levels)) :
    (levels.map Prod.fst).Nodup ∧
    (∀ i, i < n → (mapGet levels i).isSome) ∧
    (∀ i, i < n → ∀ d ∈ deps i,
      ∃ ld li, mapGet levels d = some ld ∧ mapGet levels i = some li ∧ ld + 1 ≤ li) := by
  have hinit : GoodSt deps ⟨∅, ∅, []⟩ := by
    refine ⟨?_, ?_, ?_, ?_⟩ <;> simp [mapGet]
  rw [topologicalSort] at h
  cases ha : topoSortAux deps n (List.range n) ⟨∅, ∅, []⟩ with
  | none => rw [ha] at h; simp at h
  | some r =>
    cases r with
    | error e => rw [ha] at h; simp at h
    | ok st'' =>
      rw [ha] at h
      simp only [Option.some.injEq, Except.ok.injEq] at h
      subst h
      obtain ⟨g, _, _, hall⟩ :=
        topoSortAux_ok_spec deps n (List.range n) ⟨∅, ∅, []⟩ st'' hinit ha
      refine ⟨g.2.2.1, ?_, ?_⟩
      · intro i hi
        exact g.1 i (hall i (List.mem_range.mpr hi))
      · intro i hi d hd
        exact g.2.2.2 i (hall i (List.mem_range.mpr hi)) d hd

/-! ## Grouping by level and sorting the groups -/

/-- `groupLevels` is the fold of `groupStep`. -/
theorem groupLevels_eq_fold (levels : List (Nat × Nat)) :
    groupLevels levels = levels.foldl groupStep [] := rfl

/-- Boolean membership agrees with membership for `Nat` lists. -/
theorem contains_iff_memNat (l : List Nat) (x : Nat) : l.contains x = true ↔ x ∈ l := by
  induction l with
  | nil => simp
  | cons a l ih => simp [List.contains_cons, ih]

/-- A node already grouped stays grouped (with the same level key) through
the rest of the fold. -/
theorem groupFold_persist (ls : List (Nat × Nat)) :
    ∀ (acc : List (Nat × List Nat)) (lv i : Nat),
    (∃ ns, mapGet acc lv = some ns ∧ i ∈ ns) →
    ∃ ns, mapGet (ls.foldl groupStep acc) lv = some ns ∧ i ∈ ns := by
  induction ls with
  | nil => intro acc lv i h; simpa using h
  | cons p ps ih =>
    intro acc lv i h
    rw [List.foldl_cons]
    refine ih (groupStep acc p) lv i ?_
    obtain ⟨ns, hns, hi⟩ := h
    cases hg : mapGet acc p.2 with
    | some ms =>
      simp only [groupStep, hg]
      by_cases he : lv = p.2
      · subst he
        rw [hns] at hg
        obtain rfl : ns = ms := Option.some.inj hg
        exact ⟨ns ++ [p.1], by rw [mapGet_mapSet_self], List.mem_append.mpr (Or.inl hi)⟩
      · exact ⟨ns, by rw [mapGet_mapSet_ne _ _ _ _ he, hns], hi⟩
    | none =>
      simp only [groupStep, hg]
      by_cases he : lv = p.2
      · subst he
        rw [hns] at hg
        cases hg
      · refine ⟨ns, ?_, hi⟩
        rw [mapGet_append_left acc _ lv (by rw [hns]; rfl), hns]

/-- Every pair of the level map ends up grouped under its level key. -/
theorem groupFold_mem (ls : List (Nat × Nat)) :
    ∀ (acc : List (Nat × List Nat)) (p : Nat × Nat), p ∈ ls →
    ∃ ns, mapGet (ls.foldl groupStep acc) p.2 = some ns ∧ p.1 ∈ ns := by
  induction ls with
  | nil => intro acc p h; simp at h
  | cons q qs ih =>
    intro acc p hp
    rw [List.foldl_cons]
    rcases List.mem_cons.mp hp with rfl | hp
    · refine groupFold_persist qs (groupStep acc p) p.2 p.1 ?_
      cases hg : mapGet acc p.2 with
      | some ms =>
        simp only [groupStep, hg]
        exact ⟨ms ++ [p.1], by rw [mapGet_mapSet_self], by simp⟩
      | none =>
        simp only [groupStep, hg]
        refine ⟨[p.1], ?_, by simp⟩
        rw [mapGet_append_right acc _ p.2 ?_, mapGet_cons, if_pos (by simp)]
        intro hmem
        have hs := (mapGet_isSome_iff acc p.2).mpr hmem
        rw [hg] at hs
        exact Bool.false_ne_true hs
    · exact ih (groupStep acc q) p hp

/-- Everything the fold groups comes from the accumulator or the list. -/
theorem groupFold_sound (C : Nat → Nat → Prop) (ls : List (Nat × Nat)) :
    ∀ acc : List (Nat × List Nat),
    (∀ g ∈ acc, ∀ i ∈ g.2, C i g.1) → (∀ p ∈ ls, C p.1 p.2) →
    ∀ g ∈ ls.foldl groupStep acc, ∀ i ∈ g.2, C i g.1 := by
  induction ls with
  | nil => intro acc hacc _ g hg; exact hacc g hg
  | cons q qs ih =>
    intro acc hacc hls
    rw [List.foldl_cons]
    refine ih (groupStep acc q) ?_ (fun p hp => hls p (List.mem_cons_of_mem _ hp))
    intro g hg i hi
    cases hgq : mapGet acc q.2 with
    | some ms =>
      simp only [groupStep, hgq] at hg
      rcases mem_mapSet acc q.2 (ms ++ [q.1]) g hg with hg | rfl
      · exact hacc g hg i hi
      · rcases List.mem_append.mp hi with hi | hi
        · exact hacc (q.2, ms) (mapGet_some_mem acc q.2 ms hgq) i hi
        · rw [List.mem_singleton.mp hi]
          exact hls q (List.mem_cons_self _ _)
    | none =>
      simp only [groupStep, hgq] at hg
      rcases List.mem_append.mp hg with hg | hg
      · exact hacc g hg i hi
      · rw [List.mem_singleton.mp hg] at hi ⊢
        rw [List.mem_singleton.mp hi]
        exact hls q (List.mem_cons_self _ _)

/-- The fold keeps the level keys duplicate-free. -/
theorem groupFold_keys_nodup (ls : List (Nat × Nat)) :
    ∀ acc : List (Nat × List Nat), (acc.map Prod.fst).Nodup →
    ((ls.foldl groupStep acc).map Prod.fst).Nodup := by
  induction ls with
  | nil => intro acc h; exact h
  | cons q qs ih =>
    intro acc h
    rw [List.foldl_cons]
    refine ih (groupStep acc q) ?_
    cases hgq : mapGet acc q.2 with
    | some ms =>
      simp only [groupStep, hgq]
      rw [keys_mapSet_of_isSome acc q.2 _ (by rw [← mapGet_isSome_eq_find, hgq]; rfl)]
      exact h
    | none =>
      simp only [groupStep, hgq]
      rw [List.map_append]
      refine List.Nodup.append h (List.nodup_singleton _) ?_
      intro x hx hx'
      rw [List.mem_singleton.mp hx'] at hx
      have hs := (mapGet_isSome_iff acc q.2).mpr hx
      rw [hgq] at hs
      exact Bool.false_ne_true hs

/-- A node of some group has a group position. -/
theorem groupPos_isSome_of_mem :
    ∀ (gs : List (Nat × List Nat)) (g : Nat × List Nat) (i : Nat),
    g ∈ gs → i ∈ g.2 → ∃ k, groupPos gs i = some k := by
  intro gs
  induction gs with
  | nil => intro g i hg; simp at hg
  | cons g₀ rest ih =>
    intro g i hg hi
    by_cases h0 : g₀.2.contains i
    · exact ⟨0, by simp only [groupPos]; rw [if_pos h0]⟩
    · have hgrest : g ∈ rest := by
        rcases List.mem_cons.mp hg with rfl | h
        · exact absurd ((contains_iff_memNat _ _).mpr hi) h0
        · exact h
      obtain ⟨k, hk⟩ := ih g i hgrest hi
      refine ⟨k + 1, ?_⟩
      simp only [groupPos]
      rw [if_neg h0, hk]
      rfl

/-- In a list of groups sorted by ascending key, a node confined to a
smaller-keyed group sits at a strictly earlier position than a node confined
to a larger-keyed one. -/
theorem groupPos_lt_of_key_lt :
    ∀ (gs : List (Nat × List Nat)),
    List.Sorted (fun a b => a.1 ≤ b.1) gs →
    ∀ (ga gb : Nat × List Nat), ga ∈ gs → gb ∈ gs →
    ga.1 < gb.1 → ∀ (i j : Nat), i ∈ ga.2 → j ∈ gb.2 →
    (∀ g ∈ gs, i ∈ g.2 → g = ga) → (∀ g ∈ gs, j ∈ g.2 → g = gb) →
    ∃ pi pj, groupPos gs i = some pi ∧ groupPos gs j = some pj ∧ pi < pj := by
  intro gs
  induction gs with
  | nil => intro _ ga gb ha; simp at ha
  | cons g₀ rest ih =>
    intro hsort ga gb ha hb hkey i j hi hj hui huj
    rw [List.sorted_cons] at hsort
    by_cases h0i : g₀.2.contains i
    · have hg0 : g₀ = ga := hui g₀ (List.mem_cons_self _ _) ((contains_iff_memNat _ _).mp h0i)
      have hbne : gb ≠ g₀ := fun e => by
        rw [e, hg0] at hkey
        exact Nat.lt_irrefl _ hkey
      have hbrest : gb ∈ rest := by
        rcases List.mem_cons.mp hb with e | hmem
        · exact absurd e hbne
        · exact hmem
      have h0j : ¬g₀.2.contains j = true := fun hc =>
        hbne (huj g₀ (List.mem_cons_self _ _) ((contains_iff_memNat _ _).mp hc)).symm
      obtain ⟨pj, hpj⟩ := groupPos_isSome_of_mem rest gb j hbrest hj
      refine ⟨0, pj + 1, ?_, ?_, Nat.succ_pos pj⟩
      · simp only [groupPos]
        rw [if_pos h0i]
      · simp only [groupPos]
        rw [if_neg h0j, hpj]
        rfl
    · have h0j : ¬g₀.2.contains j = true := fun hc => by
        have he : g₀ = gb := huj g₀ (List.mem_cons_self _ _) ((contains_iff_memNat _ _).mp hc)
        rcases List.mem_cons.mp ha with e | harest
        · exact h0i ((contains_iff_memNat _ _).mpr (by rw [e] at hi; exact hi))
        · have hle := hsort.1 ga harest
          rw [he] at hle
          exact absurd hkey (Nat.not_lt.mpr hle)
      have harest : ga ∈ rest := by
        rcases List.mem_cons.mp ha with e | hmem
        · exact absurd ((contains_iff_memNat _ _).mpr (by rw [e] at hi; exact hi)) h0i
        · exact hmem
      have hbrest : gb ∈ rest := by
        rcases List.mem_cons.mp hb with e | hmem
        · exact absurd ((contains_iff_memNat _ _).mpr (by rw [e] at hj; exact hj)) h0j
        · exact hmem
      obtain ⟨pi, pj, hpi, hpj, hlt⟩ :=
        ih hsort.2 ga gb harest hbrest hkey i j hi hj
          (fun g hg => hui g (List.mem_cons_of_mem _ hg))
          (fun g hg => huj g (List.mem_cons_of_mem _ hg))
      refine ⟨pi + 1, pj + 1, ?_, ?_, Nat.succ_lt_succ hlt⟩
      · simp only [groupPos]
        rw [if_neg h0i, hpi]
        rfl
      · simp only [groupPos]
        rw [if_neg h0j, hpj]
        rfl

/-- Layer positions over the projected node lists agree with group
positions. -/
theorem idxPos_map_snd (gs : List (Nat × List Nat)) (i : Nat) :
    idxPos (gs.map (·.2)) i = groupPos gs i := by
  induction gs with
  | nil => rfl
  | cons g rest ih => simp only [List.map_cons, idxPos, groupPos, ih]

/-! ## Dependency-edge membership -/

/-- `Set.prototype.add` keeps old members. -/
theorem insertUnique_mem (l : List Nat) (x y : Nat) (h : x ∈ l) :
    x ∈ insertUnique l y := by
  rw [insertUnique]
  by_cases hc : l.contains y
  · rw [if_pos hc]
    exact h
  · rw [if_neg hc]
    exact List.mem_append.mpr (Or.inl h)

/-- `Set.prototype.add` adds its argument. -/
theorem insertUnique_mem_self (l : List Nat) (y : Nat) : y ∈ insertUnique l y := by
  rw [insertUnique]
  by_cases hc : l.contains y
  · rw [if_pos hc]
    exact (contains_iff_memNat l y).mp hc
  · rw [if_neg hc]
    exact List.mem_append.mpr (Or.inr (List.mem_singleton.mpr rfl))

/-- Accumulated dependencies persist through the `depsOf` fold. -/
theorem depsOf_fold_persist (outIdx : List (String × Nat)) (fs : List String) :
    ∀ (acc : List Nat) (x : Nat), x ∈ acc →
    x ∈ fs.foldl (fun acc f =>
      match mapGet outIdx f with
      | some j => insertUnique acc j
      | none => acc) acc := by
  induction fs with
  | nil => intro acc x h; exact h
  | cons f fs ih =>
    intro acc x h
    rw [List.foldl_cons]
    refine ih _ x ?_
    cases hg : mapGet outIdx f with
    | some j =>
      simp only [hg]
      exact insertUnique_mem acc x j h
    | none =>
      simp only [hg]
      exact h

/-- A file resolved by the output index contributes its producer to the
`depsOf` fold. -/
theorem depsOf_fold_mem (outIdx : List (String × Nat)) (fs : List String) :
    ∀ (acc : List Nat) (f : String) (j : Nat), f ∈ fs → mapGet outIdx f = some j →
    j ∈ fs.foldl (fun acc f =>
      match mapGet outIdx f with
      | some j => insertUnique acc j
      | none => acc) acc := by
  induction fs with
  | nil => intro acc f j h; simp at h
  | cons f₀ fs ih =>
    intro acc f j hf hj
    rw [List.foldl_cons]
    rcases List.mem_cons.mp hf with rfl | hf
    · refine depsOf_fold_persist outIdx fs _ j ?_
      simp only [hj]
      exact insertUnique_mem_self acc j
    · exact ih _ f j hf hj

/-- A file resolved by the output index contributes its producer to the
dependency edges of its consumer. -/
theorem depsOf_mem (outIdx : List (String × Nat)) (obj : DependencyObject)
    (f : String) (j : Nat) (hf : f ∈ obj.files) (hj : mapGet outIdx f = some j) :
    j ∈ depsOf outIdx obj := by
  rw [depsOf]
  exact depsOf_fold_mem outIdx obj.files [] f j hf hj

/-- The ordering property of `layerIndices`: whenever the plugin's layering
succeeds, every dependency edge that the output index resolves places the
producer in a strictly earlier layer than the consumer. -/
theorem layerIndices_producer_before_consumer (objs : List DependencyObject)
    (layers : List (List Nat)) (h : layerIndices objs = some (.ok layers))
    (c : Nat) (hc : c < objs.length) (f : String) (p : Nat)
    (hf : f ∈ (objs.getD c ⟨[], []⟩).files)
    (hp : mapGet (buildOutputIndex objs) f = some p) :
    ∃ ip ic, idxPos layers p = some ip ∧ idxPos layers c = some ic ∧ ip < ic := by
  simp only [layerIndices] at h
  cases ht : topologicalSort
      (fun i => depsOf (buildOutputIndex objs) (objs.getD i ⟨[], []⟩)) objs.length with
  | none => rw [ht] at h; simp at h
  | some r =>
    cases r with
    | error e => rw [ht] at h; simp at h
    | ok levels =>
      rw [ht] at h
      simp only [Option.some.injEq, Except.ok.injEq] at h
      subst h
      obtain ⟨hnodup, _, hedges⟩ := topologicalSort_ok_spec _ _ levels ht
      have hpdep : p ∈ (fun i => depsOf (buildOutputIndex objs) (objs.getD i ⟨[], []⟩)) c :=
        depsOf_mem _ _ f p hf hp
      obtain ⟨lp, lc, hlp, hlc, hle⟩ := hedges c hc p hpdep
      have hmp : (p, lp) ∈ levels := mapGet_some_mem _ _ _ hlp
      have hmc : (c, lc) ∈ levels := mapGet_some_mem _ _ _ hlc
      obtain ⟨nsp, hnsp, hpin⟩ := groupFold_mem levels [] (p, lp) hmp
      obtain ⟨nsc, hnsc, hcin⟩ := groupFold_mem levels [] (c, lc) hmc
      have hsound : ∀ g ∈ levels.foldl groupStep [], ∀ i ∈ g.2, (i, g.1) ∈ levels :=
        groupFold_sound (fun i lv => (i, lv) ∈ levels) levels [] (by simp)
          (fun q hq => by simpa using hq)
      have hknodup : ((levels.foldl groupStep []).map Prod.fst).Nodup :=
        groupFold_keys_nodup levels [] (by simp)
      have hperm : List.Perm (sortByKey (levels.foldl groupStep []))
          (levels.foldl groupStep []) := List.perm_insertionSort _ _
      have hsorted : List.Sorted (fun a b => a.1 ≤ b.1)
          (sortByKey (levels.foldl groupStep [])) := List.sorted_insertionSort _ _
      have hga : (lp, nsp) ∈ sortByKey (levels.foldl groupStep []) :=
        hperm.mem_iff.mpr (mapGet_some_mem _ _ _ hnsp)
      have hgb : (lc, nsc) ∈ sortByKey (levels.foldl groupStep []) :=
        hperm.mem_iff.mpr (mapGet_some_mem _ _ _ hnsc)
      have hup : ∀ g ∈ sortByKey (levels.foldl groupStep []), p ∈ g.2 → g = (lp, nsp) := by
        intro g hg hpg
        have hgs : g ∈ levels.foldl groupStep [] := hperm.mem_iff.mp hg
        have h1 : (p, g.1) ∈ levels := hsound g hgs p hpg
        have hkeyg : g.1 = lp := mem_nodup_val_unique levels p g.1 lp hnodup h1 hmp
        have h2 : mapGet (levels.foldl groupStep []) g.1 = some g.2 :=
          mapGet_eq_of_mem_nodup _ g.1 g.2 hknodup (by simpa using hgs)
        rw [hkeyg, hnsp] at h2
        have h3 : g.2 = nsp := (Option.some.inj h2).symm
        obtain ⟨g1, g2⟩ := g
        simp only at hkeyg h3
        rw [hkeyg, h3]
      have huc : ∀ g ∈ sortByKey (levels.foldl groupStep []), c ∈ g.2 → g = (lc, nsc) := by
        intro g hg hcg
        have hgs : g ∈ levels.foldl groupStep [] := hperm.mem_iff.mp hg
        have h1 : (c, g.1) ∈ levels := hsound g hgs c hcg
        have hkeyg : g.1 = lc := mem_nodup_val_unique levels c g.1 lc hnodup h1 hmc
        have h2 : mapGet (levels.foldl groupStep []) g.1 = some g.2 :=
          mapGet_eq_of_mem_nodup _ g.1 g.2 hknodup (by simpa using hgs)
        rw [hkeyg, hnsc] at h2
        have h3 : g.2 = nsc := (Option.some.inj h2).symm
        obtain ⟨g1, g2⟩ := g
        simp only at hkeyg h3
        rw [hkeyg, h3]
      obtain ⟨pi, pj, hpi, hpj, hlt⟩ :=
        groupPos_lt_of_key_lt (sortByKey (levels.foldl groupStep [])) hsorted
          (lp, nsp) (lc, nsc) hga hgb hle p c hpin hcin hup huc
      refine ⟨pi, pj, ?_, ?_, hlt⟩
      · rw [groupLevels_eq_fold, idxPos_map_snd]
        exact hpi
      · rw [groupLevels_eq_fold, idxPos_map_snd]
        exact hpj

/-- `getD` of a mapped dependency object is the object of the `getD` task
(`Task.empty` maps to the empty object). -/
theorem getD_map_depObjOf (l : List Task) (c : Nat) :
    (l.map depObjOf).getD c ⟨[], []⟩ = depObjOf (l.getD c Task.empty) := by
  rw [List.getD_eq_getElem?_getD, List.getD_eq_getElem?_getD, List.getElem?_map]
  cases hg : l[c]? with
  | some t => simp [hg]
  | none => simp [hg, depObjOf, taskFiles, taskOutputs]

/-- **C6, counterexample.** The claim as stated fails on concrete configs:
with `[P, R, Q, S]` (`P` consumes `S`'s output, `R` consumes `Q`'s) the
produced layers `[S, Q]; [P, R]` do not preserve the original task order
(`Q` precedes `S` in the input), and with two producers of the same output
plus a consumer (`[A, B, C]`) the `Map`-based output index drops producer
`A`, which is laid out *after* its consumer `C`. -/
theorem layering_claim_fails_on_examples :
    claimC6Holds layerExampleOne = false ∧ claimC6Holds layerExampleTwo = false := by
  constructor
  · simp [claimC6Holds, layerExampleOne, layerTaskP, layerTaskR, layerTaskQ, layerTaskS,
      mkCommandTask, organizeTasksInLayers, layerIndices, topologicalSort, topoSortAux,
      visit, visitDeps, buildOutputIndex, depsOf, insertUnique, mapGet, mapSet, List.find?,
      isCommandTask, depObjOf, taskFiles, taskOutputs, List.enum, List.enumFrom, groupLevels,
      groupStep, sortByKey, List.insertionSort, List.orderedInsert, layerTaskLists, layerPosOf,
      isSublistB, List.findIdx?_cons, List.findIdx?_nil, instBEqTask, taskBEq, taskListBEq,
      List.contains_cons]
  · simp [claimC6Holds, layerExampleTwo, layerTaskA, layerTaskB, layerTaskC,
      mkCommandTask, organizeTasksInLayers, layerIndices, topologicalSort, topoSortAux,
      visit, visitDeps, buildOutputIndex, depsOf, insertUnique, mapGet, mapSet, List.find?,
      isCommandTask, depObjOf, taskFiles, taskOutputs, List.enum, List.enumFrom, groupLevels,
      groupStep, sortByKey, List.insertionSort, List.orderedInsert, layerTaskLists, layerPosOf,
      isSublistB, List.findIdx?_cons, List.findIdx?_nil, instBEqTask, taskBEq, taskListBEq,
      List.contains_cons]

/-- **C6, amended.** When the dependency-layering plugin succeeds, the result
is the `Serial` of `Parallel` layers drawn from index layers over the command
tasks (non-command tasks appended), and for every dependency edge that the
output index resolves — consumer command `c` declaring input file `f`, where
the index maps `f` to producer command `p` — the producer's layer strictly
precedes the consumer's.  (Order preservation within a layer and edges
shadowed by a later producer of the same output are *not* guaranteed, per the
counterexample.) -/
theorem organize_layers_producer_before_consumer
    (tasks : List Task) (result : Task)
    (hres : organizeTasksInLayers tasks = some (.ok result))
    (c p : Nat) (f : String)
    (hc : c < (tasks.filter isCommandTask).length)
    (hf : f ∈ taskFiles ((tasks.filter isCommandTask).getD c Task.empty))
    (hp : mapGet (buildOutputIndex ((tasks.filter isCommandTask).map depObjOf)) f =
      some p) :
    ∃ layers ip ic,
      result = Task.serial
        ((layers.map (fun ns => Task.parallel (ns.filterMap
          (fun i => (tasks.filter isCommandTask)[i]?)))) ++
          tasks.filter (fun t => !isCommandTask t)) ∧
      idxPos layers p = some ip ∧ idxPos layers c = some ic ∧ ip < ic := by
  simp only [organizeTasksInLayers] at hres
  cases hli : layerIndices ((tasks.filter isCommandTask).map depObjOf) with
  | none => rw [hli] at hres; simp at hres
  | some r =>
    cases r with
    | error e => rw [hli] at hres; simp at hres
    | ok layers =>
      rw [hli] at hres
      simp only [Option.some.injEq, Except.ok.injEq] at hres
      have hc' : c < ((tasks.filter isCommandTask).map depObjOf).length := by
        rw [List.length_map]
        exact hc
      have hf' : f ∈ (((tasks.filter isCommandTask).map depObjOf).getD c ⟨[], []⟩).files := by
        rw [getD_map_depObjOf]
        exact hf
      obtain ⟨ip, ic, h1, h2, h3⟩ :=
        layerIndices_producer_before_consumer _ layers hli c hc' f p hf' hp
      exact ⟨layers, ip, ic, hres.symm, h1, h2, h3⟩

/-- Witness for the amended C6 theorem on the spec's own scenario
(`build-schema` producing `schema.json`, `build-client` consuming it),
configured in the *reversed* order: the layering still puts the producer
first. -/
theorem organize_layers_producer_before_consumer_witness :
    organizeTasksInLayers [buildClientTask, buildSchemaTask] =
      some (.ok (Task.serial
        [Task.parallel [buildSchemaTask], Task.parallel [buildClientTask]])) ∧
    ∃ layers ip ic,
      Task.serial [Task.parallel [buildSchemaTask], Task.parallel [buildClientTask]] =
        Task.serial
          ((layers.map (fun ns => Task.parallel (ns.filterMap
            (fun i => ([buildClientTask, buildSchemaTask].filter isCommandTask)[i]?)))) ++
            [buildClientTask, buildSchemaTask].filter (fun t => !isCommandTask t)) ∧
      idxPos layers 1 = some ip ∧ idxPos layers 0 = some ic ∧ ip < ic := by
  have hres : organizeTasksInLayers [buildClientTask, buildSchemaTask] =
      some (.ok (Task.serial
        [Task.parallel [buildSchemaTask], Task.parallel [buildClientTask]])) := by
    simp [organizeTasksInLayers, buildClientTask, buildSchemaTask, mkCommandTask,
      layerIndices, topologicalSort, topoSortAux, visit, visitDeps, buildOutputIndex,
      depsOf, insertUnique, mapGet, mapSet, List.find?, isCommandTask, depObjOf,
      taskFiles, taskOutputs, List.enum, List.enumFrom, groupLevels, groupStep, sortByKey,
      List.insertionSort, List.orderedInsert]
    rfl
  exact ⟨hres, organize_layers_producer_before_consumer [buildClientTask, buildSchemaTask]
    _ hres 0 1 "schema.json" (by decide) (by decide) (by decide)⟩

end Shadowdog
